import Mathlib

-- Verification development for the crawl/index/retrieve core of the scraper app
-- (src/app.py, src/db.py).  Python strings are embedded as `List Char`; the pieces of
-- CPython's standard library that the code leans on (urllib.parse, html.unescape,
-- str.strip, re.sub on whitespace) are embedded from their sources; third-party
-- library calls (requests, BeautifulSoup, PyMuPDF, scikit-learn) are oracle
-- parameters, since their outputs are data the program merely consumes.

set_option maxRecDepth 20000

namespace App

abbrev Str := List Char

-- ===================== Python text primitives =====================

/-- The whitespace class of Python's regex `\s` and of `str.strip()`, restricted to
ASCII (the app only ever feeds it text; the non-ASCII Unicode spaces are not
modelled). -/
def isPySpace (c : Char) : Bool :=
  c = ' ' ∨ c = '\t' ∨ c = '\n' ∨ c = '\r' ∨ c = '\x0b' ∨ c = '\x0c'

/-- Python `s.strip()`: drop leading and trailing whitespace. -/
def pyStrip (l : Str) : Str :=
  ((l.dropWhile isPySpace).reverse.dropWhile isPySpace).reverse

/-- Worker for `re.sub(r"\s+", " ", s)`: the flag records whether the previous
character was part of a whitespace run already replaced by a single space. -/
def collapseWsGo : Bool → Str → Str
  | _, [] => []
  | inRun, c :: rest =>
    if isPySpace c then
      if inRun then collapseWsGo true rest
      else ' ' :: collapseWsGo true rest
    else c :: collapseWsGo false rest

/-- Python `re.sub(r"\s+", " ", s)`: every maximal whitespace run becomes one space. -/
def collapseWs (l : Str) : Str := collapseWsGo false l

-- ===================== html.unescape (CPython html module) =====================

/-- Character class of a named-reference body in CPython's `html._charref` regex:
`[^\t\n\f <&#;]`. -/
def isEntNameChar (c : Char) : Bool :=
  ¬ (c = '\t' ∨ c = '\n' ∨ c = '\x0c' ∨ c = ' ' ∨ c = '<' ∨ c = '&' ∨ c = '#' ∨ c = ';')

/-- Named-entity table of CPython's `html5` dict, restricted to a representative set of
common entities (keys with and without the trailing semicolon, exactly as in CPython).
Every omitted entry has the same shape as these: a key of length at least 2 and a
value of length at most 2 characters. -/
def html5Entities : List (Str × Str) :=
  [("amp;".data, "&".data), ("amp".data, "&".data),
   ("lt;".data, "<".data), ("lt".data, "<".data),
   ("gt;".data, ">".data), ("gt".data, ">".data),
   ("quot;".data, "\"".data), ("quot".data, "\"".data),
   ("apos;".data, "\x27".data),
   ("nbsp;".data, " ".data), ("nbsp".data, " ".data),
   ("copy;".data, "©".data), ("copy".data, "©".data),
   ("reg;".data, "®".data), ("reg".data, "®".data),
   ("ndash;".data, "–".data), ("mdash;".data, "—".data),
   ("hellip;".data, "…".data),
   ("NotEqualTilde;".data, ['≂', '̸'])]

/-- CPython `html._invalid_charrefs`: numeric references remapped per the WHATWG
spec (mostly windows-1252 repertoire). -/
def invalidCharrefs : List (Nat × Char) :=
  [(0x00, '�'), (0x0d, '\r'), (0x80, '€'), (0x81, '\x81'),
   (0x82, '‚'), (0x83, 'ƒ'), (0x84, '„'), (0x85, '…'),
   (0x86, '†'), (0x87, '‡'), (0x88, 'ˆ'), (0x89, '‰'),
   (0x8a, 'Š'), (0x8b, '‹'), (0x8c, 'Œ'), (0x8d, '\x8d'),
   (0x8e, 'Ž'), (0x8f, '\x8f'), (0x90, '\x90'), (0x91, '‘'),
   (0x92, '’'), (0x93, '“'), (0x94, '”'), (0x95, '•'),
   (0x96, '–'), (0x97, '—'), (0x98, '˜'), (0x99, '™'),
   (0x9a, 'š'), (0x9b, '›'), (0x9c, 'œ'), (0x9d, '\x9d'),
   (0x9e, 'ž'), (0x9f, 'Ÿ')]

/-- CPython `html._invalid_codepoints` as a predicate (these yield the empty string). -/
def isInvalidCodepoint (n : Nat) : Bool :=
  (1 ≤ n ∧ n ≤ 8) ∨ n = 0xb ∨ (0xe ≤ n ∧ n ≤ 0x1f) ∨ (0x7f ≤ n ∧ n ≤ 0x9f) ∨
  (0xfdd0 ≤ n ∧ n ≤ 0xfdef) ∨ n % 0x10000 = 0xfffe ∨ n % 0x10000 = 0xffff

/-- Replacement text of a numeric character reference (CPython
`html._replace_charref`, numeric branch). -/
def numCharref (n : Nat) : Str :=
  match invalidCharrefs.lookup n with
  | some c => [c]
  | none =>
    if (0xd800 ≤ n ∧ n ≤ 0xdfff) ∨ n > 0x10ffff then ['�']
    else if isInvalidCodepoint n then []
    else [Char.ofNat n]

def isHexDigitPy (c : Char) : Bool :=
  c.isDigit ∨ ('a' ≤ c ∧ c ≤ 'f') ∨ ('A' ≤ c ∧ c ≤ 'F')

def hexDigitVal (c : Char) : Nat :=
  if c.isDigit then c.toNat - '0'.toNat
  else if 'a' ≤ c ∧ c ≤ 'f' then c.toNat - 'a'.toNat + 10
  else c.toNat - 'A'.toNat + 10

def decVal (l : Str) : Nat := l.foldl (fun a c => a * 10 + (c.toNat - '0'.toNat)) 0

def hexVal (l : Str) : Nat := l.foldl (fun a c => a * 16 + hexDigitVal c) 0

def lookupEntity (s : Str) : Option Str := html5Entities.lookup s

/-- The longest-matching-name loop of CPython `html._replace_charref`:
`for x in range(len(s)-1, 1, -1): if s[:x] in html5: return html5[s[:x]] + s[x:]`. -/
def pfxResolve (s : Str) : Nat → Option Str
  | 0 => none
  | 1 => none
  | x + 2 =>
    match lookupEntity (s.take (x + 2)) with
    | some v => some (v ++ s.drop (x + 2))
    | none => pfxResolve s (x + 1)

/-- Named branch of CPython `html._replace_charref` (`s` is the matched group,
with its optional trailing semicolon). -/
def resolveNamed (s : Str) : Str :=
  match lookupEntity s with
  | some v => v
  | none =>
    match pfxResolve s (s.length - 1) with
    | some r => r
    | none => '&' :: s

/-- True when the next character is a semicolon (the optional `;?` after a reference). -/
def hasSemiHead : Str → Bool
  | ';' :: _ => true
  | _ => false

/-- Consume the optional semicolon that ends a numeric reference. -/
def dropSemi (l : Str) : Str := if hasSemiHead l then l.drop 1 else l

/-- Match one character reference right after an ampersand, following CPython's
`html._charref` regex `&(#[0-9]+;?|#[xX][0-9a-fA-F]+;?|[^\t\n\f <&#;]{1,32};?)`.
Returns the replacement text and the input remaining after the matched text. -/
def tryCharref (l : Str) : Option (Str × Str) :=
  match l with
  | '#' :: rest =>
    match rest with
    | x :: rest2 =>
      if x = 'x' ∨ x = 'X' then
        let digits := rest2.takeWhile isHexDigitPy
        if digits = [] then none
        else some (numCharref (hexVal digits), dropSemi (rest2.drop digits.length))
      else
        let digits := rest.takeWhile Char.isDigit
        if digits = [] then none
        else some (numCharref (decVal digits), dropSemi (rest.drop digits.length))
    | [] => none
  | _ =>
    let name := (l.takeWhile isEntNameChar).take 32
    if name = [] then none
    else if hasSemiHead (l.drop name.length) then
      some (resolveNamed (name ++ [';']), (l.drop name.length).drop 1)
    else some (resolveNamed name, l.drop name.length)

/-- Scanner of `re.sub(_charref, _replace_charref, s)`, with fuel (each step consumes
at least one input character, so fuel `l.length` never runs out). -/
def unescGo : Nat → Str → Str
  | 0, l => l
  | _ + 1, [] => []
  | fuel + 1, c :: rest =>
    if c = '&' then
      match tryCharref rest with
      | some (repl, rem) => repl ++ unescGo fuel rem
      | none => '&' :: unescGo fuel rest
    else c :: unescGo fuel rest

/-- CPython `html.unescape`. -/
def html_unescape (l : Str) : Str :=
  if '&' ∈ l then unescGo l.length l else l

-- ===================== clean_text (src/app.py lines 60-65) =====================

/-- `clean_text` from src/app.py: falsy input gives "", otherwise `html.unescape`,
then collapse every whitespace run to a single space, then strip. -/
def clean_text (s : Str) : Str :=
  if s = [] then []
  else pyStrip (collapseWs (html_unescape s))

-- ===================== urllib.parse (CPython) =====================
-- Embedded from CPython's Lib/urllib/parse.py (current 3.11-line semantics: WHATWG
-- C0-control/space lstrip, removal of tab/CR/LF, scheme must start with an ASCII
-- letter, mismatched-bracket netlocs raise ValueError).  `allow_fragments` is always
-- True in this program, so it is not a parameter.  ValueError is `Except.error ()`.

/-- WHATWG "C0 control or space" class stripped from the start of a URL. -/
def isC0OrSpace (c : Char) : Bool := c.toNat ≤ 0x20

/-- `_UNSAFE_URL_BYTES_TO_REMOVE`: tab, CR and LF are deleted anywhere in a URL. -/
def isUnsafeUrlByte (c : Char) : Bool := c = '\t' ∨ c = '\r' ∨ c = '\n'

/-- `scheme_chars` from urllib.parse. -/
def schemeChars : Str :=
  "abcdefghijklmnopqrstuvwxyzABCDEFGHIJKLMNOPQRSTUVWXYZ0123456789+-.".data

/-- Python `str.lower` restricted to ASCII (only ever applied to `scheme_chars`). -/
def pyLower (c : Char) : Char :=
  if 'A' ≤ c ∧ c ≤ 'Z' then Char.ofNat (c.toNat + 32) else c

/-- Strip a character class from both ends (Python `str.strip(chars)`). -/
def stripEnds (p : Char → Bool) (l : Str) : Str :=
  ((l.dropWhile p).reverse.dropWhile p).reverse

/-- The cleaning performed on the `url` argument at the top of `urlsplit`. -/
def urlClean (l : Str) : Str :=
  (l.dropWhile isC0OrSpace).filter (fun c => ¬ isUnsafeUrlByte c)

/-- The cleaning performed on the `scheme` (default) argument at the top of `urlsplit`. -/
def schemeClean (l : Str) : Str :=
  (stripEnds isC0OrSpace l).filter (fun c => ¬ isUnsafeUrlByte c)

/-- Python `url.split(sep, 1)`: text before the first occurrence of `sep`, and the text
after it (empty second component and untouched first component when `sep` is absent,
which coincides with not splitting at all). -/
def splitSep (sep : Char) : Str → Str × Str
  | [] => ([], [])
  | c :: rest =>
    if c = sep then ([], rest)
    else (c :: (splitSep sep rest).1, (splitSep sep rest).2)

/-- `_splitnetloc`: the netloc runs until the first of `/`, `?` or `#`; the delimiter
stays with the remainder. -/
def isNetlocEnd (c : Char) : Bool := c = '/' ∨ c = '?' ∨ c = '#'

/-- Scheme detection of `urlsplit`: `i = url.find(':')`; the text before the colon is a
scheme when it is nonempty, starts with an ASCII letter and uses only `scheme_chars`;
it is then lowercased.  Otherwise the (cleaned) default scheme applies. -/
def schemeSplit (url dflt : Str) : Str × Str :=
  let pre := url.takeWhile (fun c => c ≠ ':')
  match url.dropWhile (fun c => c ≠ ':') with
  | _ :: after =>
    if pre ≠ [] ∧ (pre.headD 'a').toNat ≤ 127 ∧ (pre.headD 'a').isAlpha
        ∧ pre.all (fun c => c ∈ schemeChars) then
      (pre.map pyLower, after)
    else (dflt, url)
  | [] => (dflt, url)

structure SplitResult where
  scheme : Str
  netloc : Str
  path : Str
  query : Str
  fragment : Str
deriving DecidableEq

/-- The `Invalid IPv6 URL` check of `urlsplit`. -/
def badBrackets (n : Str) : Bool :=
  ('[' ∈ n ∧ ']' ∉ n) ∨ (']' ∈ n ∧ '[' ∉ n)

/-- CPython `urllib.parse.urlsplit` (allow_fragments=True).  The NFKC check of
`_checknetloc` is a no-op on ASCII netlocs and is not modelled; the bracketed-host
validation added in late 3.11 patch releases is likewise not modelled (no claim
involves bracketed hosts) — the mismatched-bracket ValueError of all versions is. -/
def urlsplit (url0 dflt0 : Str) : Except Unit SplitResult :=
  let url1 := urlClean url0
  let dflt := schemeClean dflt0
  let sp := schemeSplit url1 dflt
  let hasNet := sp.2.take 2 = ['/', '/']
  let netloc := if hasNet then (sp.2.drop 2).takeWhile (fun c => ¬ isNetlocEnd c) else []
  let url2 := if hasNet then (sp.2.drop 2).dropWhile (fun c => ¬ isNetlocEnd c) else sp.2
  if badBrackets netloc then .error ()
  else
    let fr := splitSep '#' url2
    let qu := splitSep '?' fr.1
    .ok ⟨sp.1, netloc, qu.1, qu.2, fr.2⟩

structure ParseResult where
  scheme : Str
  netloc : Str
  path : Str
  params : Str
  query : Str
  fragment : Str
deriving DecidableEq

/-- CPython `urllib.parse._splitparams`: split the params off the final path segment. -/
def splitparams (p : Str) : Str × Str :=
  if '/' ∈ p then
    let lastSeg := (p.reverse.takeWhile (fun c => c ≠ '/')).reverse
    let stem := p.take (p.length - lastSeg.length)
    if ';' ∈ lastSeg then
      (stem ++ (splitSep ';' lastSeg).1, (splitSep ';' lastSeg).2)
    else (p, [])
  else splitSep ';' p

/-- `uses_params` from urllib.parse. -/
def usesParams : List Str :=
  [[], "ftp".data, "hdl".data, "prospero".data, "http".data, "imap".data,
   "https".data, "shttp".data, "rtsp".data, "rtsps".data, "rtspu".data,
   "sip".data, "sips".data, "mms".data, "sftp".data, "tel".data]

/-- CPython `urllib.parse.urlparse` (allow_fragments=True). -/
def urlparse (url0 dflt0 : Str) : Except Unit ParseResult :=
  match urlsplit url0 dflt0 with
  | .error e => .error e
  | .ok s =>
    .ok ⟨s.scheme, s.netloc,
      (if s.scheme ∈ usesParams ∧ ';' ∈ s.path then splitparams s.path
       else (s.path, [])).1,
      (if s.scheme ∈ usesParams ∧ ';' ∈ s.path then splitparams s.path
       else (s.path, [])).2,
      s.query, s.fragment⟩

/-- `uses_relative` from urllib.parse. -/
def usesRelative : List Str :=
  [[], "ftp".data, "http".data, "gopher".data, "nntp".data, "imap".data,
   "wais".data, "file".data, "https".data, "shttp".data, "mms".data,
   "prospero".data, "rtsp".data, "rtspu".data, "sftp".data, "svn".data,
   "svn+ssh".data, "ws".data, "wss".data]

/-- `uses_netloc` from urllib.parse. -/
def usesNetloc : List Str :=
  [[], "ftp".data, "http".data, "gopher".data, "nntp".data, "telnet".data,
   "imap".data, "wais".data, "file".data, "mms".data, "https".data,
   "shttp".data, "snews".data, "prospero".data, "rtsp".data, "rtspu".data,
   "rsync".data, "svn".data, "svn+ssh".data, "sftp".data, "nfs".data,
   "git".data, "git+ssh".data, "ws".data, "wss".data]

/-- CPython `urllib.parse.urlunsplit`. -/
def urlunsplit (scheme netloc path query fragment : Str) : Str :=
  let url :=
    if netloc ≠ [] ∨ (scheme ≠ [] ∧ scheme ∈ usesNetloc ∧ path.take 2 ≠ ['/', '/']) then
      let url' := if path ≠ [] ∧ path.take 1 ≠ ['/'] then '/' :: path else path
      '/' :: '/' :: (netloc ++ url')
    else path
  let url := if scheme ≠ [] then scheme ++ ':' :: url else url
  let url := if query ≠ [] then url ++ '?' :: query else url
  if fragment ≠ [] then url ++ '#' :: fragment else url

/-- CPython `urllib.parse.urlunparse`. -/
def urlunparse (scheme netloc path params query fragment : Str) : Str :=
  let url := if params ≠ [] then path ++ ';' :: params else path
  urlunsplit scheme netloc url query fragment

/-- Python `str.split(sep)` for a single-character separator (never empty). -/
def splitChar (sep : Char) : Str → List Str
  | [] => [[]]
  | c :: rest =>
    if c = sep then [] :: splitChar sep rest
    else
      match splitChar sep rest with
      | s :: ss => (c :: s) :: ss
      | [] => [[c]]

/-- Python `'/'.join`. -/
def joinChar (sep : Char) : List Str → Str
  | [] => []
  | [s] => s
  | s :: rest => s ++ sep :: joinChar sep rest

/-- `segments[1:-1] = filter(None, segments[1:-1])` from `urljoin`. -/
def filterMiddle (l : List Str) : List Str :=
  match l with
  | [] => []
  | [x] => [x]
  | x :: rest => x :: ((rest.dropLast.filter (fun seg => seg ≠ [])) ++ rest.drop (rest.length - 1))

/-- The dot-segment resolution loop of `urljoin`. -/
def resolveSegs (segments : List Str) : List Str :=
  segments.foldl
    (fun acc seg =>
      if seg = ['.', '.'] then acc.dropLast
      else if seg = ['.'] then acc
      else acc ++ [seg]) []

/-- CPython `urllib.parse.urljoin` (allow_fragments=True). -/
def urljoin (base url : Str) : Except Unit Str :=
  if base = [] then .ok url
  else if url = [] then .ok base
  else
   match urlparse base [] with
   | .error e => .error e
   | .ok b =>
    match urlparse url b.scheme with
    | .error e => .error e
    | .ok u =>
    if u.scheme ≠ b.scheme ∨ u.scheme ∉ usesRelative then .ok url
    else
      let netloc1 := u.netloc
      if u.scheme ∈ usesNetloc ∧ netloc1 ≠ [] then
        .ok (urlunparse u.scheme netloc1 u.path u.params u.query u.fragment)
      else
        let netloc2 := if u.scheme ∈ usesNetloc then b.netloc else netloc1
        if u.path = [] ∧ u.params = [] then
          let query2 := if u.query = [] then b.query else u.query
          .ok (urlunparse u.scheme netloc2 b.path b.params query2 u.fragment)
        else
          let baseParts0 := splitChar '/' b.path
          let baseParts :=
            if baseParts0.getLast? ≠ some [] then baseParts0.dropLast else baseParts0
          let segments :=
            if u.path.take 1 = ['/'] then splitChar '/' u.path
            else filterMiddle (baseParts ++ splitChar '/' u.path)
          let resolved0 := resolveSegs segments
          let resolved :=
            if segments.getLast? = some ['.'] ∨ segments.getLast? = some ['.', '.'] then
              resolved0 ++ [[]]
            else resolved0
          let joined := joinChar '/' resolved
          let path2 := if joined = [] then ['/'] else joined
          .ok (urlunparse u.scheme netloc2 path2 u.params u.query u.fragment)

-- ===================== normalize_url (src/app.py lines 73-76) =====================

/-- `normalize_url` from src/app.py: `urljoin(base, link)`, then reassemble only
scheme, netloc and path as `f"{p.scheme}://{p.netloc}{p.path}"`. -/
def normalize_url (base link : Str) : Except Unit Str :=
  match urljoin base link with
  | .error e => .error e
  | .ok joined =>
    match urlparse joined [] with
    | .error e => .error e
    | .ok p => .ok (p.scheme ++ ':' :: '/' :: '/' :: (p.netloc ++ p.path))

-- (theorems follow after all definitions)

-- ===================== Page Store (db.py scraped_pages + app.py upsert_page) ====

structure PageRow where
  id : Nat
  url : Str
  title : Str
  content : Str
  fetchedAt : Nat
deriving DecidableEq

/-- A fresh AUTOINCREMENT id (its exact value is irrelevant to every claim). -/
def nextId (store : List PageRow) : Nat :=
  (store.map (fun r => r.id)).foldl max 0 + 1

/-- `upsert_page` (app.py 78-88) against the `scraped_pages` table (db.py 77-85):
`INSERT .. ON CONFLICT(url) DO UPDATE SET title, content, fetched_at`.  `now` stands
for CURRENT_TIMESTAMP. -/
def upsert_page (store : List PageRow) (now : Nat) (url title content : Str) :
    List PageRow :=
  if store.any (fun r => r.url = url) then
    store.map (fun r =>
      if r.url = url then
        { r with title := title, content := content, fetchedAt := now }
      else r)
  else
    store ++ [{ id := nextId store, url := url, title := title,
                content := content, fetchedAt := now }]

-- ===================== Crawl engine (app.py background_scrape) =====================

/-- Title of an HTML page (app.py line 247):
`soup.title.string.strip() if soup.title and soup.title.string else url`.
`none` covers both a missing title tag and a title tag whose `.string` is None
(an empty element); `some t` is a present string, falsy exactly when empty. -/
def htmlTitle (titleStr : Option Str) (url : Str) : Str :=
  match titleStr with
  | some t => if t ≠ [] then pyStrip t else url
  | none => url

/-- Title of a PDF (app.py line 241): `url.split("/")[-1] or url`. -/
def pdfTitle (url : Str) : Str :=
  let segs := splitChar '/' url
  let lastSeg := (segs.drop (segs.length - 1)).headD []
  if lastSeg = [] then url else lastSeg

/-- The outcome of `requests.get` plus the content-type dispatch of lines 230-250;
the actual network, BeautifulSoup and PyMuPDF are oracles producing this data. -/
inductive FetchResult where
  | err : FetchResult
  | notOk : FetchResult
  | pdfDoc (pages : Option (List Str)) : FetchResult
  | htmlDoc (titleStr : Option Str) (rawText : Str) (hrefs : List Str) : FetchResult
  | other : FetchResult

/-- The environment of one crawl job: the fetch/robots oracles, the stop flag as
observed at each loop iteration (another thread may clear `_scrape_state["running"]`
at any time), the root domain and the page budget. -/
structure CrawlEnv where
  fetch : Str → FetchResult
  canFetch : Str → Bool
  stopped : Nat → Bool
  root : Str
  maxPages : Nat

/-- The mutable state of the crawl loop.  `fetchLog` and `enqLog` are ghost
instrumentation: they record every URL passed to `requests.get` (line 230) and every
URL appended to the queue by the link loop (line 263), so that trace properties can
be stated; they influence nothing. -/
structure CrawlState where
  queue : List Str
  visited : List Str
  store : List PageRow
  pagesSaved : Nat
  lastUrl : Option Str
  errored : Bool
  fetchLog : List Str
  enqLog : List Str
  tick : Nat
deriving DecidableEq

/-- The link loop of app.py lines 256-263.  A ValueError from URL parsing aborts the
remaining anchors but keeps the appends already made (the queue is mutated in place);
the outer `except` at line 266 then continues the crawl loop.  Returns the new queue
and the new ghost enqueue log. -/
def appendLinks (pageUrl : Str) (hrefs : List Str) (visited : List Str) (root : Str)
    (queue : List Str) (enqLog : List Str) : List Str × List Str :=
  match hrefs with
  | [] => (queue, enqLog)
  | h :: rest =>
    if "mailto:".data.isPrefixOf h ∨ "tel:".data.isPrefixOf h
        ∨ "javascript:".data.isPrefixOf h then
      appendLinks pageUrl rest visited root queue enqLog
    else
      match normalize_url pageUrl h with
      | .error _ => (queue, enqLog)
      | .ok normalized =>
        match urlparse normalized [] with
        | .error _ => (queue, enqLog)
        | .ok p =>
          if root.isSuffixOf p.netloc ∧ normalized ∉ visited then
            appendLinks pageUrl rest visited root (queue ++ [normalized])
              (enqLog ++ [normalized])
          else appendLinks pageUrl rest visited root queue enqLog

/-- Outcome of one iteration of the `while` loop: `exit` when the loop stops (the
guard at line 217 is false, or the ValueError at line 224 escapes the body through
the handler at line 269), `cont` with the state after one full iteration otherwise. -/
inductive StepOut where
  | exit (st : CrawlState) : StepOut
  | cont (st : CrawlState) : StepOut
deriving DecidableEq

/-- One iteration of the `while` loop of `background_scrape` (app.py 217-268).
`tick` counts iterations and doubles as the clock for CURRENT_TIMESTAMP. -/
def crawlStep (env : CrawlEnv) (st : CrawlState) : StepOut :=
  if st.queue = [] ∨ ¬ st.visited.length < env.maxPages ∨ env.stopped st.tick then
    .exit st
  else
    match st.queue with
    | [] => .exit st
    | url :: rest =>
      let st0 := { st with queue := rest, tick := st.tick + 1 }
      if url ∈ st0.visited then .cont st0
      else
        let st1 := { st0 with visited := url :: st0.visited, lastUrl := some url }
        match urlparse url [] with
        | .error _ => .exit { st1 with errored := true }
        | .ok p =>
          if ¬ env.root.isSuffixOf p.netloc then .cont st1
          else if ¬ env.canFetch url then .cont st1
          else
            let st2 := { st1 with fetchLog := st1.fetchLog ++ [url] }
            match env.fetch url with
            | .err => .cont st2
            | .notOk => .cont st2
            | .other => .cont st2
            | .pdfDoc none => .cont st2
            | .pdfDoc (some pages) =>
              let content := joinChar '\n' pages
              let title := pdfTitle url
              let st3 :=
                if pyStrip content ≠ [] then
                  { st2 with
                    store := upsert_page st2.store st2.tick url title content,
                    pagesSaved := st2.pagesSaved + 1 }
                else st2
              .cont st3
            | .htmlDoc titleStr rawText hrefs =>
              let title := htmlTitle titleStr url
              let content := clean_text rawText
              let st3 :=
                if pyStrip content ≠ [] then
                  { st2 with
                    store := upsert_page st2.store st2.tick url title content,
                    pagesSaved := st2.pagesSaved + 1 }
                else st2
              let ql := appendLinks url hrefs st3.visited env.root st3.queue st3.enqLog
              .cont { st3 with queue := ql.1, enqLog := ql.2 }

/-- The `while` loop of `background_scrape`, with fuel: `none` means the fuel ran
out before the loop exited (the termination theorem shows some fuel always
suffices); `some st` is the state at loop exit. -/
def crawlRun (env : CrawlEnv) : Nat → CrawlState → Option CrawlState
  | 0, _ => none
  | fuel + 1, st =>
    match crawlStep env st with
    | .exit stE => some stE
    | .cont stC => crawlRun env fuel stC

/-- The state carried by either outcome of `crawlStep`. -/
def stepState : StepOut → CrawlState
  | .exit s => s
  | .cont s => s

/-- The state a crawl job starts from (lines 213-215 after the reset at 196-200). -/
def initCrawl (seed : Str) (store0 : List PageRow) : CrawlState :=
  { queue := [seed], visited := [], store := store0, pagesSaved := 0, lastUrl := none,
    errored := false, fetchLog := [], enqLog := [], tick := 0 }

/-- The externally visible job record after the `finally` block (lines 271-273). -/
structure ScrapeStatus where
  running : Bool
  pagesSaved : Nat
  finished : Bool
  errored : Bool
deriving DecidableEq

/-- `background_scrape`'s `finally` block: `running` is cleared and `finished_at`
set no matter how the loop ended. -/
def scrapeFinal (st : CrawlState) : ScrapeStatus :=
  { running := false, pagesSaved := st.pagesSaved, finished := true,
    errored := st.errored }

-- ===================== TF-IDF index (app.py 300-359) =====================

structure IdxRow where
  url : Str
  title : Str
  content : Str
deriving DecidableEq

/-- The `_tfidf_vectorizer` global: a `TfidfVectorizer` object, either freshly
constructed (line 322) or fitted on a document list by `fit_transform`. -/
inductive VecState where
  | unfitted : VecState
  | fitted (docs : List Str) : VecState
deriving DecidableEq

/-- The four index globals of app.py lines 300-303. -/
structure TfidfState where
  vectorizer : Option VecState
  matrix : Option (List (List ℚ))
  rows : List IdxRow
  lastIndexCount : Nat
deriving DecidableEq

def initTfidf : TfidfState := ⟨none, none, [], 0⟩

/-- Consistency of a snapshot: one matrix row per indexed document.  This holds of
the initial state and of everything a successful rebuild produces. -/
def TfidfState.wf (st : TfidfState) : Prop :=
  ∀ m, st.matrix = some m → m.length = st.rows.length

/-- Oracle for scikit-learn: `transform docs text` is the TF-IDF vector of `text`
under the vocabulary fitted on `docs` (so `fit_transform docs` is
`docs.map (transform docs)`, one matrix row per document); `canFit docs` is false
exactly when `fit_transform` raises (e.g. "empty vocabulary" when every document
consists of stop words); `cos` is `cosine_similarity` of the query vector against
one matrix row.  Scores are rationals standing for floats. -/
structure SklearnOracle where
  transform : List Str → Str → List ℚ
  canFit : List Str → Bool
  cos : List ℚ → List ℚ → ℚ

/-- `build_tfidf_index` (app.py 305-325).  `Except.error` means `fit_transform`
raised; the state returned alongside it is the values the four globals hold at that
point: `_tfidf_rows` (line 312/316) and `_tfidf_vectorizer` (line 322) have already
been overwritten, while `_tfidf_matrix` and `_last_index_count` still hold the
previous snapshot's values. -/
def build_tfidf_index (o : SklearnOracle) (store : List PageRow) (st : TfidfState) :
    TfidfState × Except Unit Nat :=
  let docs := store.map (fun r => clean_text (r.title ++ ' ' :: r.content))
  let rows := store.map (fun r => ({ url := r.url, title := r.title,
                                     content := r.content } : IdxRow))
  if docs = [] then
    ({ vectorizer := none, matrix := none, rows := rows, lastIndexCount := 0 }, .ok 0)
  else if o.canFit docs then
    ({ vectorizer := some (.fitted docs),
       matrix := some (docs.map (o.transform docs)),
       rows := rows, lastIndexCount := docs.length }, .ok docs.length)
  else
    ({ vectorizer := some .unfitted, matrix := st.matrix,
       rows := rows, lastIndexCount := st.lastIndexCount }, .error ())

/-- `ensure_index_up_to_date` (app.py 327-334); `store.length` is the
`SELECT COUNT(*)` result. -/
def ensure_index_up_to_date (o : SklearnOracle) (store : List PageRow)
    (st : TfidfState) : TfidfState × Except Unit Nat :=
  if store.length ≠ st.lastIndexCount ∨ st.vectorizer = none ∨ st.matrix = none then
    build_tfidf_index o store st
  else (st, .ok st.lastIndexCount)

/-- Insert index `i` into an index list kept ascending by score. -/
def insertIdxBy (sims : List ℚ) (i : Nat) : List Nat → List Nat
  | [] => [i]
  | j :: rest =>
    if sims.getD i 0 ≤ sims.getD j 0 then i :: j :: rest
    else j :: insertIdxBy sims i rest

/-- `numpy.argsort` on the similarity vector: the indices `0..n-1` ordered by
ascending score (numpy's default sort leaves tie order unspecified; insertion sort
realizes one deterministic choice). -/
def argsortAsc (sims : List ℚ) : List Nat :=
  (List.range sims.length).foldr (insertIdxBy sims) []

structure QueryResult where
  url : Str
  title : Str
  snippet : Str
  score : ℚ
deriving DecidableEq

/-- `vectorizer.transform([query])`: raises NotFittedError on an unfitted
vectorizer, otherwise embeds the query under the fitted vocabulary. -/
def vecTransform (o : SklearnOracle) : VecState → Str → Except Unit (List ℚ)
  | .unfitted, _ => .error ()
  | .fitted docs, q => .ok (o.transform docs q)

/-- `retrieve_tfidf` (app.py 342-359).  `Except.error` propagates a Python
exception (from the rebuild inside `ensure_index_up_to_date` or from `transform`);
on success, the ranked results plus the index state the call leaves behind. -/
def retrieve_tfidf (o : SklearnOracle) (store : List PageRow) (st : TfidfState)
    (query : Str) (topN : Nat) : Except Unit (List QueryResult × TfidfState) :=
  if pyStrip query = [] then .ok ([], st)
  else
    match ensure_index_up_to_date o store st with
    | (_, .error e) => .error e
    | (st1, .ok _) =>
      match st1.vectorizer, st1.matrix with
      | some v, some m =>
        if st1.rows = [] then .ok ([], st1)
        else
          match vecTransform o v query with
          | .error e => .error e
          | .ok qvec =>
            let sims := m.map (o.cos qvec)
            let idxs := (argsortAsc sims).reverse.take topN
            .ok (idxs.map (fun i =>
              let row := st1.rows.getD i ⟨[], [], []⟩
              ({ url := row.url, title := row.title,
                 snippet := clean_text (row.content.take 800),
                 score := sims.getD i 0 } : QueryResult)), st1)
      | _, _ => .ok ([], st1)

-- ===================== in-scope check, as coded and as specified ================

/-- The scope test the crawl actually performs (app.py lines 224 and 262):
`urlparse(u).netloc.endswith(root)` (false stands in for the unreachable
arm only when parsing raises, in which case the caller aborts instead). -/
def inScope (u root : Str) : Bool :=
  match urlparse u [] with
  | .ok p => root.isSuffixOf p.netloc
  | .error _ => false

/-- Modelled from the spec's words, for comparison: "true iff the URL's host equals
or is a subdomain of rootDomain". -/
def inScopeSpec (u root : Str) : Bool :=
  match urlparse u [] with
  | .ok p => p.netloc = root ∨ ('.' :: root).isSuffixOf p.netloc
  | .error _ => false

/-- A detected (and lowercased) scheme token: nonempty, leading ASCII letter, all
characters in `scheme_chars`, stable under lowercasing. -/
def validToken (s : Str) : Prop :=
  s ≠ [] ∧ (s.headD 'a').toNat ≤ 127 ∧ (s.headD 'a').isAlpha = true ∧
  (∀ c ∈ s, c ∈ schemeChars) ∧ s.map pyLower = s

/-- The final slash-segment contains no semicolon (so `_splitparams` is a no-op). -/
def noSemiLast (p : Str) : Prop := ';' ∉ p.reverse.takeWhile (fun c => c ≠ '/')

-- ===================== theorems =====================

-- ===================== length bounds for the text pipeline =====================

theorem dropWhile_length_le (p : Char → Bool) (l : Str) :
    (l.dropWhile p).length ≤ l.length := by
  induction l with
  | nil => simp [List.dropWhile]
  | cons c rest ih =>
    by_cases h : p c
    · simp [List.dropWhile, h]; omega
    · simp [List.dropWhile, h]

theorem pyStrip_length_le (l : Str) : (pyStrip l).length ≤ l.length := by
  unfold pyStrip
  calc ((l.dropWhile isPySpace).reverse.dropWhile isPySpace).reverse.length
      = ((l.dropWhile isPySpace).reverse.dropWhile isPySpace).length := by
        simp
    _ ≤ (l.dropWhile isPySpace).reverse.length := dropWhile_length_le _ _
    _ = (l.dropWhile isPySpace).length := by simp
    _ ≤ l.length := dropWhile_length_le _ _

theorem collapseWsGo_length_le (b : Bool) (l : Str) :
    (collapseWsGo b l).length ≤ l.length := by
  induction l generalizing b with
  | nil => simp [collapseWsGo]
  | cons c rest ih =>
    by_cases h : isPySpace c
    · cases b with
      | true =>
        simp only [collapseWsGo, h, if_true]
        exact le_trans (ih true) (by simp)
      | false =>
        simp only [collapseWsGo, h, if_true]
        simpa using ih true
    · simp only [collapseWsGo, h, if_false]
      cases b <;> simpa using ih false

theorem collapseWs_length_le (l : Str) : (collapseWs l).length ≤ l.length :=
  collapseWsGo_length_le false l

theorem take_length_le_32 (l : Str) : (l.take 32).length ≤ 32 := by
  simp [List.length_take]

/-- Every named-entity table value has at most 2 characters and every key at least 2. -/
theorem html5Entities_shape :
    ∀ kv ∈ html5Entities, 2 ≤ kv.1.length ∧ kv.2.length ≤ 2 := by decide

theorem lookup_mem {α β : Type} [BEq α] [LawfulBEq α] :
    ∀ {l : List (α × β)} {k : α} {v : β}, l.lookup k = some v → (k, v) ∈ l := by
  intro l
  induction l with
  | nil => intro k v h; simp [List.lookup] at h
  | cons p rest ih =>
    intro k v h
    obtain ⟨k', v'⟩ := p
    by_cases hk : k = k'
    · subst hk
      simp [List.lookup] at h
      simp [h]
    · have hb : (k == k') = false := by simp [hk]
      simp [List.lookup, hb] at h
      exact List.mem_cons_of_mem _ (ih h)

theorem lookupEntity_shape (s v : Str) (h : lookupEntity s = some v) :
    2 ≤ s.length ∧ v.length ≤ 2 := by
  unfold lookupEntity at h
  have hm := lookup_mem h
  have := html5Entities_shape (s, v) hm
  simpa using this

theorem numCharref_length_le (n : Nat) : (numCharref n).length ≤ 1 := by
  unfold numCharref
  cases h : invalidCharrefs.lookup n with
  | some c => simp
  | none =>
    by_cases h1 : ((0xd800 ≤ n ∧ n ≤ 0xdfff) ∨ n > 0x10ffff)
    · simp [h1]
    · by_cases h2 : isInvalidCodepoint n = true
      · simp [h1, h2]
      · simp [h1, h2]

theorem pfxResolve_length_le (s : Str) (x : Nat) (r : Str)
    (h : pfxResolve s x = some r) : r.length ≤ s.length := by
  induction x with
  | zero => simp [pfxResolve] at h
  | succ x ih =>
    match x, h with
    | 0, h => simp [pfxResolve] at h
    | Nat.succ y, h =>
      unfold pfxResolve at h
      cases hl : lookupEntity (s.take (y + 2)) with
      | some v =>
        rw [hl] at h
        have hs := lookupEntity_shape _ _ hl
        have hv : v.length ≤ 2 := hs.2
        have htk : 2 ≤ (s.take (y + 2)).length := hs.1
        have hmin : (s.take (y + 2)).length = min (y + 2) s.length :=
          List.length_take _ _
        simp only [Option.some.injEq] at h
        subst h
        simp only [List.length_append, List.length_drop]
        omega
      | none =>
        rw [hl] at h
        exact ih h

theorem resolveNamed_length_le (s : Str) : (resolveNamed s).length ≤ 1 + s.length := by
  unfold resolveNamed
  cases hl : lookupEntity s with
  | some v =>
    have := (lookupEntity_shape _ _ hl)
    simp; omega
  | none =>
    cases hp : pfxResolve s (s.length - 1) with
    | some r =>
      have := pfxResolve_length_le _ _ _ hp
      simp; omega
    | none => simp; omega

theorem takeWhile_length_le (p : Char → Bool) (l : Str) :
    (l.takeWhile p).length ≤ l.length := by
  induction l with
  | nil => simp [List.takeWhile]
  | cons c rest ih =>
    by_cases h : p c
    · simp [List.takeWhile, h]; omega
    · simp [List.takeWhile, h]

theorem dropSemi_length_le (l : Str) : (dropSemi l).length ≤ l.length := by
  unfold dropSemi
  by_cases h : hasSemiHead l <;> simp [h, List.length_drop]

theorem hasSemiHead_length (l : Str) (h : hasSemiHead l = true) : 1 ≤ l.length := by
  cases l with
  | nil => simp [hasSemiHead] at h
  | cons c rest => simp

theorem tryCharref_length (l repl rem : Str) (h : tryCharref l = some (repl, rem)) :
    repl.length + rem.length ≤ 1 + l.length := by
  unfold tryCharref at h
  split at h
  case _ rest =>
    -- numeric reference: leading '#'
    cases rest with
    | nil => simp at h
    | cons x rest2 =>
      simp only at h
      by_cases hx : (x = 'x' ∨ x = 'X')
      · rw [if_pos hx] at h
        by_cases hd : rest2.takeWhile isHexDigitPy = []
        · rw [if_pos hd] at h; simp at h
        · rw [if_neg hd] at h
          simp only [Option.some.injEq, Prod.mk.injEq] at h
          obtain ⟨h1, h2⟩ := h
          subst h1; subst h2
          have ha := numCharref_length_le (hexVal (rest2.takeWhile isHexDigitPy))
          have hb := dropSemi_length_le (rest2.drop (rest2.takeWhile isHexDigitPy).length)
          have hc : (rest2.drop (rest2.takeWhile isHexDigitPy).length).length ≤ rest2.length := by
            simp [List.length_drop]
          simp only [List.length_cons]
          omega
      · rw [if_neg hx] at h
        by_cases hd : (x :: rest2).takeWhile Char.isDigit = []
        · rw [if_pos hd] at h; simp at h
        · rw [if_neg hd] at h
          simp only [Option.some.injEq, Prod.mk.injEq] at h
          obtain ⟨h1, h2⟩ := h
          subst h1; subst h2
          have ha := numCharref_length_le (decVal ((x :: rest2).takeWhile Char.isDigit))
          have hb := dropSemi_length_le ((x :: rest2).drop ((x :: rest2).takeWhile Char.isDigit).length)
          have hc : ((x :: rest2).drop ((x :: rest2).takeWhile Char.isDigit).length).length
              ≤ (x :: rest2).length := by
            simp [List.length_drop]
          simp only [List.length_cons] at *
          omega
  case _ =>
    -- named reference
    simp only at h
    by_cases hn : (l.takeWhile isEntNameChar).take 32 = []
    · rw [if_pos hn] at h; simp at h
    · rw [if_neg hn] at h
      have hnl : ((l.takeWhile isEntNameChar).take 32).length ≤ l.length := by
        have h1 : ((l.takeWhile isEntNameChar).take 32).length
            ≤ (l.takeWhile isEntNameChar).length := by
          simp [List.length_take]
        exact le_trans h1 (takeWhile_length_le _ _)
      by_cases hs : hasSemiHead (l.drop ((l.takeWhile isEntNameChar).take 32).length)
      · rw [if_pos hs] at h
        simp only [Option.some.injEq, Prod.mk.injEq] at h
        obtain ⟨h1, h2⟩ := h
        subst h1; subst h2
        have ha := resolveNamed_length_le ((l.takeWhile isEntNameChar).take 32 ++ [';'])
        have hsl := hasSemiHead_length _ hs
        simp only [List.length_drop] at *
        simp only [List.length_append, List.length_cons, List.length_nil] at ha
        omega
      · rw [if_neg hs] at h
        simp only [Option.some.injEq, Prod.mk.injEq] at h
        obtain ⟨h1, h2⟩ := h
        subst h1; subst h2
        have ha := resolveNamed_length_le ((l.takeWhile isEntNameChar).take 32)
        simp only [List.length_drop] at *
        omega

theorem unescGo_length_le (fuel : Nat) (l : Str) :
    (unescGo fuel l).length ≤ l.length := by
  induction fuel generalizing l with
  | zero => simp [unescGo]
  | succ fuel ih =>
    cases l with
    | nil => simp [unescGo]
    | cons c rest =>
      rw [unescGo]
      by_cases hc : c = '&'
      · rw [if_pos hc]
        cases htc : tryCharref rest with
        | some pr =>
          obtain ⟨repl, rem⟩ := pr
          have hlen := tryCharref_length rest repl rem htc
          have hgo := ih rem
          simp only [List.length_append, List.length_cons]
          omega
        | none =>
          have hgo := ih rest
          simp only [List.length_cons]
          omega
      · rw [if_neg hc]
        have hgo := ih rest
        simp only [List.length_cons]
        omega

theorem html_unescape_length_le (l : Str) : (html_unescape l).length ≤ l.length := by
  unfold html_unescape
  by_cases h : '&' ∈ l
  · rw [if_pos h]; exact unescGo_length_le _ _
  · rw [if_neg h]

theorem clean_text_length_le (s : Str) : (clean_text s).length ≤ s.length := by
  unfold clean_text
  by_cases h : s = []
  · simp [h]
  · rw [if_neg h]
    calc (pyStrip (collapseWs (html_unescape s))).length
        ≤ (collapseWs (html_unescape s)).length := pyStrip_length_le _
      _ ≤ (html_unescape s).length := collapseWs_length_le _
      _ ≤ s.length := html_unescape_length_le _


-- ---------- helper lemmas about upsert_page ----------

theorem upsert_any_iff (store : List PageRow) (url : Str) :
    (store.any (fun r => r.url = url)) = true ↔ url ∈ store.map (fun r => r.url) := by
  rw [List.any_eq_true]
  constructor
  · rintro ⟨r, hr, hp⟩
    exact List.mem_map.mpr ⟨r, hr, by simpa using hp⟩
  · rintro hm
    obtain ⟨r, hr, hp⟩ := List.mem_map.mp hm
    exact ⟨r, hr, by simpa using hp⟩

theorem upsert_mem_eq (store : List PageRow) (now : Nat) (url t c : Str)
    (h : url ∈ store.map (fun r => r.url)) :
    upsert_page store now url t c = store.map (fun r =>
      if r.url = url then { r with title := t, content := c, fetchedAt := now }
      else r) := by
  unfold upsert_page
  rw [if_pos ((upsert_any_iff store url).mpr h)]

theorem upsert_not_mem_eq (store : List PageRow) (now : Nat) (url t c : Str)
    (h : url ∉ store.map (fun r => r.url)) :
    upsert_page store now url t c =
      store ++ [{ id := nextId store, url := url, title := t, content := c,
                  fetchedAt := now }] := by
  unfold upsert_page
  rw [if_neg (fun hc => h ((upsert_any_iff store url).mp hc))]

theorem upsert_map_url (store : List PageRow) (now : Nat) (url t c : Str) :
    (upsert_page store now url t c).map (fun r => r.url) =
      if url ∈ store.map (fun r => r.url) then store.map (fun r => r.url)
      else store.map (fun r => r.url) ++ [url] := by
  by_cases h : url ∈ store.map (fun r => r.url)
  · rw [if_pos h, upsert_mem_eq store now url t c h, List.map_map]
    refine List.map_congr_left ?_
    intro r _
    by_cases hr : r.url = url <;> simp [hr]
  · rw [if_neg h, upsert_not_mem_eq store now url t c h]
    simp

theorem filter_url_nil (store : List PageRow) (url : Str)
    (h : url ∉ store.map (fun r => r.url)) :
    store.filter (fun r => r.url = url) = [] := by
  rw [List.filter_eq_nil_iff]
  intro r hr
  simp only [decide_eq_true_eq]
  intro he
  exact h (List.mem_map.mpr ⟨r, hr, he⟩)

theorem nodup_filter_url (store : List PageRow) (url : Str)
    (hnd : (store.map (fun r => r.url)).Nodup)
    (hm : url ∈ store.map (fun r => r.url)) :
    (store.filter (fun r => r.url = url)).length = 1 := by
  induction store with
  | nil => simp at hm
  | cons r rest ih =>
    simp only [List.map_cons, List.nodup_cons] at hnd
    by_cases hr : r.url = url
    · have hnr : url ∉ rest.map (fun x => x.url) := by
        rw [← hr]; exact hnd.1
      rw [List.filter_cons_of_pos (by simpa using hr), filter_url_nil rest url hnr]
      simp
    · rw [List.filter_cons_of_neg (by simpa using hr)]
      apply ih hnd.2
      rcases List.mem_map.mp hm with ⟨x, hx, hxe⟩
      rcases List.mem_cons.mp hx with hx | hx
      · subst hx; exact absurd hxe hr
      · exact List.mem_map.mpr ⟨x, hx, hxe⟩

-- ---------- C5 ----------

/-- C5: an upsert never duplicates a url (url-uniqueness of scraped_pages is
preserved), and upserting the same URL twice with different content leaves exactly
one row for that URL, holding the second title, content and timestamp — an
overwrite in place, not an append. -/
theorem upsert_unique_overwrite (store : List PageRow) (url t1 c1 t2 c2 : Str)
    (n1 n2 : Nat) (hnd : (store.map (fun r => r.url)).Nodup) :
    ((upsert_page store n1 url t1 c1).map (fun r => r.url)).Nodup ∧
    ((upsert_page (upsert_page store n1 url t1 c1) n2 url t2 c2).filter
        (fun r => r.url = url)).length = 1 ∧
    (∀ r ∈ upsert_page (upsert_page store n1 url t1 c1) n2 url t2 c2,
      r.url = url → r.title = t2 ∧ r.content = c2 ∧ r.fetchedAt = n2) := by
  set s1 := upsert_page store n1 url t1 c1 with hs1
  have hmap1 : s1.map (fun r => r.url) =
      if url ∈ store.map (fun r => r.url) then store.map (fun r => r.url)
      else store.map (fun r => r.url) ++ [url] :=
    upsert_map_url store n1 url t1 c1
  have hnd1 : (s1.map (fun r => r.url)).Nodup := by
    rw [hmap1]
    by_cases h : url ∈ store.map (fun r => r.url)
    · rwa [if_pos h]
    · rw [if_neg h]
      have hd : (store.map (fun r => r.url)).Disjoint [url] := by
        intro x hx hx'
        rw [List.mem_singleton] at hx'
        subst hx'
        exact h hx
      exact List.nodup_append.mpr ⟨hnd, List.nodup_singleton url, hd⟩
  have hm1 : url ∈ s1.map (fun r => r.url) := by
    rw [hmap1]
    by_cases h : url ∈ store.map (fun r => r.url)
    · rwa [if_pos h]
    · rw [if_neg h]; simp
  have hs2 : upsert_page s1 n2 url t2 c2 = s1.map (fun r =>
      if r.url = url then { r with title := t2, content := c2, fetchedAt := n2 }
      else r) := upsert_mem_eq s1 n2 url t2 c2 hm1
  refine ⟨hnd1, ?_, ?_⟩
  · rw [hs2, List.filter_map]
    have hcomp : ∀ r ∈ s1,
        ((fun x : PageRow => decide (x.url = url)) ∘ (fun r =>
          if r.url = url then { r with title := t2, content := c2, fetchedAt := n2 }
          else r)) r = decide (r.url = url) := by
      intro r _
      by_cases hr : r.url = url <;> simp [hr]
    rw [List.filter_congr hcomp, List.length_map]
    exact nodup_filter_url s1 url hnd1 hm1
  · intro r hr hu
    rw [hs2] at hr
    rcases List.mem_map.mp hr with ⟨r0, _, hre⟩
    by_cases h0 : r0.url = url
    · rw [if_pos h0] at hre
      rw [← hre]
      exact ⟨rfl, rfl, rfl⟩
    · rw [if_neg h0] at hre
      exact absurd (hre ▸ hu) h0

/-- Witness for C5 at a concrete store. -/
theorem upsert_unique_overwrite_witness :
    (([⟨7, "a".data, "x".data, "y".data, 0⟩] : List PageRow).map
        (fun r => r.url)).Nodup ∧
    ((upsert_page (upsert_page [⟨7, "a".data, "x".data, "y".data, 0⟩] 1 "u".data
        "t1".data "c1".data) 2 "u".data "t2".data "c2".data).filter
        (fun r => r.url = "u".data)).length = 1 :=
  ⟨by decide,
   (upsert_unique_overwrite [⟨7, "a".data, "x".data, "y".data, 0⟩] "u".data
      "t1".data "c1".data "t2".data "c2".data 1 2 (by decide)).2.1⟩

-- ---------- C10 ----------

/-- C10 (frame effect): upserting an already-stored URL rewrites the table
pointwise — the table length is unchanged, every row with a different url is kept
as-is, and the matched row keeps its id and url while receiving exactly the new
title, content and fetched_at. -/
theorem upsert_frame (store : List PageRow) (now : Nat) (url t c : Str)
    (h : url ∈ store.map (fun r => r.url)) :
    upsert_page store now url t c = store.map (fun r =>
        if r.url = url then { r with title := t, content := c, fetchedAt := now }
        else r) ∧
    (upsert_page store now url t c).length = store.length ∧
    (∀ r ∈ store, r.url ≠ url → r ∈ upsert_page store now url t c) ∧
    (∀ r ∈ store, r.url = url →
      ({ id := r.id, url := r.url, title := t, content := c,
         fetchedAt := now } : PageRow) ∈ upsert_page store now url t c) := by
  have he := upsert_mem_eq store now url t c h
  refine ⟨he, by rw [he, List.length_map], ?_, ?_⟩
  · intro r hr hne
    rw [he]
    refine List.mem_map.mpr ⟨r, hr, ?_⟩
    exact if_neg hne
  · intro r hr hequ
    rw [he]
    refine List.mem_map.mpr ⟨r, hr, ?_⟩
    rw [if_pos hequ]

/-- Witness for C10 at a concrete store. -/
theorem upsert_frame_witness :
    upsert_page [⟨1, "a".data, "x".data, "y".data, 0⟩,
                 ⟨2, "b".data, "p".data, "q".data, 0⟩] 9 "b".data "T".data "C".data =
      [⟨1, "a".data, "x".data, "y".data, 0⟩, ⟨2, "b".data, "T".data, "C".data, 9⟩] := by
  have h := upsert_frame [⟨1, "a".data, "x".data, "y".data, 0⟩,
      ⟨2, "b".data, "p".data, "q".data, 0⟩] 9 "b".data "T".data "C".data (by decide)
  rw [h.1]
  decide

-- ---------- C8 ----------

/-- C8: a blank or whitespace-only query makes `retrieve_tfidf` return the empty
list immediately, without consulting or rebuilding the index — the index state is
returned untouched. -/
theorem blank_query_no_rebuild (o : SklearnOracle) (store : List PageRow)
    (st : TfidfState) (q : Str) (topN : Nat) (hq : pyStrip q = []) :
    retrieve_tfidf o store st q topN = .ok ([], st) := by
  unfold retrieve_tfidf
  rw [if_pos hq]

/-- Witness for C8 on the query "   ". -/
theorem blank_query_no_rebuild_witness :
    pyStrip "   ".data = [] ∧
    retrieve_tfidf ⟨fun _ _ => [], fun _ => true, fun _ _ => 0⟩ [] initTfidf
        "   ".data 5 = .ok ([], initTfidf) :=
  ⟨by decide,
   blank_query_no_rebuild ⟨fun _ _ => [], fun _ => true, fun _ _ => 0⟩ [] initTfidf
     "   ".data 5 (by decide)⟩

-- ---------- C2 ----------

/-- C2 (code bug): the snapshot is NOT replaced atomically.  At this concrete input
the vectorization step of a rebuild raises, and the failed rebuild leaves behind a
mixed snapshot: `_tfidf_rows` already holds the new rows and `_tfidf_vectorizer` a
fresh unfitted vectorizer, while `_tfidf_matrix` and `_last_index_count` still hold
the previous snapshot's values. -/
theorem tfidf_rebuild_not_atomic :
    (build_tfidf_index ⟨fun _ _ => [1], fun _ => false, fun _ _ => 0⟩
        [⟨1, "u1".data, "t1".data, "c1".data, 0⟩,
         ⟨2, "u2".data, "t2".data, "c2".data, 0⟩]
        { vectorizer := some (.fitted ["old doc".data]), matrix := some [[5]],
          rows := [⟨"old".data, "t".data, "c".data⟩], lastIndexCount := 1 }).2
      = .error () ∧
    (build_tfidf_index ⟨fun _ _ => [1], fun _ => false, fun _ _ => 0⟩
        [⟨1, "u1".data, "t1".data, "c1".data, 0⟩,
         ⟨2, "u2".data, "t2".data, "c2".data, 0⟩]
        { vectorizer := some (.fitted ["old doc".data]), matrix := some [[5]],
          rows := [⟨"old".data, "t".data, "c".data⟩], lastIndexCount := 1 }).1
      = { vectorizer := some .unfitted, matrix := some [[5]],
          rows := [⟨"u1".data, "t1".data, "c1".data⟩,
                   ⟨"u2".data, "t2".data, "c2".data⟩], lastIndexCount := 1 } := by
  exact ⟨rfl, rfl⟩

-- ---------- C6 ----------

theorem dropWhile_eq_nil_iff_all (p : Char → Bool) (l : Str) :
    l.dropWhile p = [] ↔ ∀ c ∈ l, p c := by
  induction l with
  | nil => simp [List.dropWhile]
  | cons c rest ih =>
    by_cases h : p c
    · simp [List.dropWhile, h, ih]
    · simp [List.dropWhile, h]

theorem pyStrip_eq_nil_iff (l : Str) : pyStrip l = [] ↔ ∀ c ∈ l, isPySpace c := by
  unfold pyStrip
  rw [List.reverse_eq_nil_iff, dropWhile_eq_nil_iff_all]
  constructor
  · intro h c hc
    by_cases hcs : isPySpace c
    · exact hcs
    · exfalso
      have hsplit := List.takeWhile_append_dropWhile (p := isPySpace) (l := l)
      have hcm : c ∈ l.takeWhile isPySpace ∨ c ∈ l.dropWhile isPySpace := by
        rw [← List.mem_append, hsplit]; exact hc
      rcases hcm with hcm | hcm
      · exact hcs (List.mem_takeWhile_imp hcm)
      · exact hcs (h c (List.mem_reverse.mpr hcm))
  · intro h c hc
    exact h c (List.dropWhile_subset isPySpace (List.mem_reverse.mp hc))

/-- C6 counterexample: a fetched HTML page whose `<title>` holds only whitespace is
stored with the empty string as its title, not with the source URL as the claim
requires. -/
theorem html_title_counterexample :
    htmlTitle (some "   ".data) "https://kiit.ac.in/".data = [] ∧
    htmlTitle (some "   ".data) "https://kiit.ac.in/".data
      ≠ "https://kiit.ac.in/".data := by decide

/-- C6 amended: the stored title is the stripped declared title whenever the title
string is present and nonempty — in particular any title containing a
non-whitespace character yields nonempty stripped text, while a whitespace-only
title is stored as the empty string (not the URL); the URL is used only when the
title is absent, None, or the empty string. -/
theorem html_title_spec (t url : Str) :
    htmlTitle none url = url ∧
    htmlTitle (some []) url = url ∧
    (t ≠ [] → htmlTitle (some t) url = pyStrip t) ∧
    ((∃ ch ∈ t, ¬ isPySpace ch) → htmlTitle (some t) url ≠ []) ∧
    (t ≠ [] → (∀ ch ∈ t, isPySpace ch) → htmlTitle (some t) url = []) := by
  refine ⟨rfl, by simp [htmlTitle], ?_, ?_, ?_⟩
  · intro ht
    simp [htmlTitle, ht]
  · rintro ⟨ch, hch, hns⟩
    have ht : t ≠ [] := by rintro rfl; simp at hch
    rw [htmlTitle, if_pos ht]
    intro hnil
    exact hns ((pyStrip_eq_nil_iff t).mp hnil ch hch)
  · intro ht hall
    rw [htmlTitle, if_pos ht]
    exact (pyStrip_eq_nil_iff t).mpr hall

/-- Witness for C6's amended statement on concrete titles. -/
theorem html_title_spec_witness :
    htmlTitle (some " K ".data) "u".data ≠ [] ∧
    htmlTitle (some "  ".data) "u".data = [] :=
  ⟨(html_title_spec " K ".data "u".data).2.2.2.1 ⟨'K', by decide, by decide⟩,
   (html_title_spec "  ".data "u".data).2.2.2.2 (by decide) (by decide)⟩

-- ---------- helper lemmas about argsort and ensure ----------

theorem insertIdxBy_length (sims : List ℚ) (i : Nat) (l : List Nat) :
    (insertIdxBy sims i l).length = l.length + 1 := by
  induction l with
  | nil => rfl
  | cons j rest ih =>
    simp only [insertIdxBy]
    split
    · simp
    · simp [ih]

theorem mem_insertIdxBy (sims : List ℚ) (i x : Nat) (l : List Nat)
    (h : x ∈ insertIdxBy sims i l) : x = i ∨ x ∈ l := by
  induction l with
  | nil => simpa [insertIdxBy] using h
  | cons j rest ih =>
    by_cases hc : sims.getD i 0 ≤ sims.getD j 0
    · simp only [insertIdxBy, if_pos hc] at h
      rcases List.mem_cons.mp h with h | h
      · exact Or.inl h
      · exact Or.inr h
    · simp only [insertIdxBy, if_neg hc] at h
      rcases List.mem_cons.mp h with h | h
      · exact Or.inr (h ▸ List.mem_cons_self j rest)
      · rcases ih h with h | h
        · exact Or.inl h
        · exact Or.inr (List.mem_cons_of_mem j h)

theorem foldr_insertIdxBy_length (sims : List ℚ) (li : List Nat) :
    (li.foldr (insertIdxBy sims) []).length = li.length := by
  induction li with
  | nil => simp
  | cons i rest ih => simp [insertIdxBy_length, ih]

theorem argsortAsc_length (sims : List ℚ) : (argsortAsc sims).length = sims.length := by
  unfold argsortAsc
  rw [foldr_insertIdxBy_length, List.length_range]

theorem mem_argsortAsc (sims : List ℚ) (x : Nat) (h : x ∈ argsortAsc sims) :
    x < sims.length := by
  unfold argsortAsc at h
  have hgen : ∀ li : List Nat, x ∈ li.foldr (insertIdxBy sims) [] → x ∈ li := by
    intro li
    induction li with
    | nil => simp
    | cons i rest ih =>
      intro hm
      rcases mem_insertIdxBy sims i x _ hm with hm | hm
      · exact hm ▸ List.mem_cons_self i rest
      · exact List.mem_cons_of_mem i (ih hm)
  exact List.mem_range.mp (hgen _ h)

theorem ensure_ok_inv (o : SklearnOracle) (store : List PageRow) (st : TfidfState)
    (hwf : TfidfState.wf st) (n : Nat)
    (hok : (ensure_index_up_to_date o store st).2 = .ok n) :
    TfidfState.wf (ensure_index_up_to_date o store st).1 ∧
    ((ensure_index_up_to_date o store st).1.rows ≠ [] →
      ∃ v m, (ensure_index_up_to_date o store st).1.vectorizer = some v ∧
             (ensure_index_up_to_date o store st).1.matrix = some m) := by
  unfold ensure_index_up_to_date at *
  by_cases hg : store.length ≠ st.lastIndexCount ∨ st.vectorizer = none
      ∨ st.matrix = none
  · rw [if_pos hg] at hok ⊢
    unfold build_tfidf_index at hok ⊢
    by_cases hd : store.map (fun r => clean_text (r.title ++ ' ' :: r.content)) = []
    · rw [if_pos hd] at hok ⊢
      have hs : store = [] := by
        cases store with
        | nil => rfl
        | cons a l => simp at hd
      subst hs
      constructor
      · intro m hm
        simp at hm
      · intro hr
        simp at hr
    · rw [if_neg hd] at hok ⊢
      by_cases hf : o.canFit (store.map (fun r => clean_text (r.title ++ ' ' :: r.content)))
      · rw [if_pos hf] at hok ⊢
        refine ⟨?_, ?_⟩
        · intro m hm
          simp only at hm
          simp only [Option.some.injEq] at hm
          subst hm
          simp
        · intro _
          exact ⟨_, _, rfl, rfl⟩
      · rw [if_neg hf] at hok
        simp at hok
  · rw [if_neg hg] at hok ⊢
    push_neg at hg
    refine ⟨hwf, fun _ => ?_⟩
    obtain ⟨v, hv⟩ := Option.ne_none_iff_exists.mp hg.2.1
    obtain ⟨m, hm⟩ := Option.ne_none_iff_exists.mp hg.2.2
    exact ⟨v, m, hv.symm, hm.symm⟩

-- ---------- C9 ----------

/-- C9: a non-blank query against a snapshot that (after the freshness check) holds
at least one document returns exactly `min topN m` results, where `m` is the number
of indexed documents — zero-similarity documents are included to fill the budget,
never filtered out. -/
theorem retrieve_count (o : SklearnOracle) (store : List PageRow) (st : TfidfState)
    (q : Str) (topN : Nat) (res : List QueryResult) (st' : TfidfState)
    (hwf : TfidfState.wf st) (hq : pyStrip q ≠ [])
    (hok : retrieve_tfidf o store st q topN = .ok (res, st'))
    (hrows : st'.rows ≠ []) :
    res.length = min topN st'.rows.length := by
  unfold retrieve_tfidf at hok
  rw [if_neg hq] at hok
  split at hok
  · exact absurd hok (by simp)
  · rename_i st1 n heq
    have h1 : (ensure_index_up_to_date o store st).1 = st1 := by rw [heq]
    have h2 : (ensure_index_up_to_date o store st).2 = .ok n := by rw [heq]
    obtain ⟨hwf1, hvm⟩ := ensure_ok_inv o store st hwf n h2
    rw [h1] at hwf1 hvm
    split at hok
    · rename_i v m hv hm
      split at hok
      · rename_i hre
        simp only [Except.ok.injEq, Prod.mk.injEq] at hok
        obtain ⟨hres, hst⟩ := hok
        subst hst
        exact absurd hre hrows
      · rename_i hre
        split at hok
        · exact absurd hok (by simp)
        · rename_i qvec hvt
          simp only [Except.ok.injEq, Prod.mk.injEq] at hok
          obtain ⟨hres, hst⟩ := hok
          subst hst
          rw [← hres, List.length_map, List.length_take, List.length_reverse,
            argsortAsc_length, List.length_map, hwf1 m hm]
    · rename_i hcatch
      simp only [Except.ok.injEq, Prod.mk.injEq] at hok
      obtain ⟨hres, hst⟩ := hok
      subst hst
      obtain ⟨v, m, hv, hm⟩ := hvm hrows
      exact (hcatch v m hv hm).elim

/-- Witness for C9: one indexed document, zero similarity, still exactly
min 5 1 = 1 result. -/
theorem retrieve_count_witness :
    ([({ url := "u".data, title := "t".data, snippet := "c".data,
         score := (0 : ℚ) } : QueryResult)]).length =
      min 5 ([({ url := "u".data, title := "t".data, content := "c".data } :
        IdxRow)]).length :=
  retrieve_count ⟨fun _ _ => [1], fun _ => true, fun _ _ => 0⟩
    [⟨1, "u".data, "t".data, "c".data, 0⟩] initTfidf "q".data 5
    [⟨"u".data, "t".data, "c".data, (0 : ℚ)⟩]
    ⟨some (.fitted ["t c".data]), some [[1]],
      [⟨"u".data, "t".data, "c".data⟩], 1⟩
    (fun m hm => by simp [initTfidf] at hm)
    (by decide) (by rfl) (by decide)

-- ---------- C3 ----------

/-- C3 counterexample: with a stored document of 799 'a's, two spaces and a 'b',
the query returns a 799-character snippet, the code's truncate-then-normalize text
`clean_text(content[:800])`; the claim's normalize-then-truncate text would be the
800 characters `replicate 799 'a' ++ [' ']`, which differs. -/
theorem snippet_order_counterexample :
    (retrieve_tfidf ⟨fun _ _ => [1], fun _ => true, fun _ _ => 1⟩
        [⟨1, "u".data, "t".data, List.replicate 799 'a' ++ [' ', ' ', 'b'], 0⟩]
        initTfidf "q".data 5).toOption.map
      (fun p => p.1.map (fun r => r.snippet)) = some [List.replicate 799 'a'] ∧
    (clean_text (List.replicate 799 'a' ++ [' ', ' ', 'b'])).take 800
      = List.replicate 799 'a' ++ [' '] ∧
    List.replicate 799 'a' ≠ List.replicate 799 'a' ++ [' '] := by
  refine ⟨by rfl, by rfl, fun h => ?_⟩
  have := congrArg List.length h
  simp at this

/-- C3 amended: every returned result's snippet is `clean_text` of the FIRST 800
CHARACTERS of the matched document's content (truncate, then normalize whitespace —
the reverse of the claimed order), and is therefore still at most 800 characters
long. -/
theorem snippet_truncate_then_clean (o : SklearnOracle) (store : List PageRow)
    (st : TfidfState) (q : Str) (topN : Nat) (res : List QueryResult)
    (st' : TfidfState) (hwf : TfidfState.wf st)
    (hok : retrieve_tfidf o store st q topN = .ok (res, st')) :
    ∀ r ∈ res, ∃ row ∈ st'.rows,
      r.url = row.url ∧ r.title = row.title ∧
      r.snippet = clean_text (row.content.take 800) ∧
      r.snippet.length ≤ 800 := by
  unfold retrieve_tfidf at hok
  by_cases hq : pyStrip q = []
  · rw [if_pos hq] at hok
    simp only [Except.ok.injEq, Prod.mk.injEq] at hok
    obtain ⟨hres, _⟩ := hok
    rw [← hres]
    intro r hr
    simp at hr
  · rw [if_neg hq] at hok
    split at hok
    · exact absurd hok (by simp)
    · rename_i st1 n heq
      have h1 : (ensure_index_up_to_date o store st).1 = st1 := by rw [heq]
      have h2 : (ensure_index_up_to_date o store st).2 = .ok n := by rw [heq]
      obtain ⟨hwf1, _⟩ := ensure_ok_inv o store st hwf n h2
      rw [h1] at hwf1
      split at hok
      · rename_i v m hv hm
        split at hok
        · rename_i hre
          simp only [Except.ok.injEq, Prod.mk.injEq] at hok
          obtain ⟨hres, hst⟩ := hok
          subst hst
          rw [← hres]
          intro r hr
          simp at hr
        · rename_i hre
          split at hok
          · exact absurd hok (by simp)
          · rename_i qvec hvt
            simp only [Except.ok.injEq, Prod.mk.injEq] at hok
            obtain ⟨hres, hst⟩ := hok
            subst hst
            rw [← hres]
            intro r hr
            rcases List.mem_map.mp hr with ⟨i, hi, hri⟩
            have hlt : i < st1.rows.length := by
              have hsub : i ∈ argsortAsc (m.map (o.cos qvec)) :=
                (List.reverse_subset.mpr fun x hx => hx)
                  (List.take_subset _ _ hi)
              have hle := mem_argsortAsc _ _ hsub
              rw [List.length_map, hwf1 m hm] at hle
              exact hle
            refine ⟨st1.rows.getD i ⟨[], [], []⟩, ?_, ?_⟩
            · rw [List.getD_eq_getElem _ _ hlt]
              exact List.getElem_mem hlt
            · rw [← hri]
              refine ⟨rfl, rfl, rfl, ?_⟩
              calc (clean_text (((st1.rows.getD i ⟨[], [], []⟩).content).take
                      800)).length
                  ≤ (((st1.rows.getD i ⟨[], [], []⟩).content).take 800).length :=
                    clean_text_length_le _
                _ ≤ 800 := by
                    rw [List.length_take]
                    exact min_le_left _ _
      · rename_i hcatch
        simp only [Except.ok.injEq, Prod.mk.injEq] at hok
        obtain ⟨hres, hst⟩ := hok
        subst hst
        rw [← hres]
        intro r hr
        simp at hr

/-- Witness for C3's amended statement on one concrete result. -/
theorem snippet_truncate_then_clean_witness :
    ∃ row ∈ [({ url := "u".data, title := "t".data, content := "c".data } : IdxRow)],
      ({ url := "u".data, title := "t".data, snippet := "c".data,
         score := (0 : ℚ) } : QueryResult).url = row.url ∧
      ({ url := "u".data, title := "t".data, snippet := "c".data,
         score := (0 : ℚ) } : QueryResult).title = row.title ∧
      ({ url := "u".data, title := "t".data, snippet := "c".data,
         score := (0 : ℚ) } : QueryResult).snippet
        = clean_text (row.content.take 800) ∧
      ({ url := "u".data, title := "t".data, snippet := "c".data,
         score := (0 : ℚ) } : QueryResult).snippet.length ≤ 800 :=
  snippet_truncate_then_clean ⟨fun _ _ => [1], fun _ => true, fun _ _ => 0⟩
    [⟨1, "u".data, "t".data, "c".data, 0⟩] initTfidf "q".data 5
    [⟨"u".data, "t".data, "c".data, (0 : ℚ)⟩]
    ⟨some (.fitted ["t c".data]), some [[1]],
      [⟨"u".data, "t".data, "c".data⟩], 1⟩
    (fun m hm => by simp [initTfidf] at hm) (by rfl)
    ⟨"u".data, "t".data, "c".data, (0 : ℚ)⟩ (List.mem_singleton.mpr rfl)


-- ---------- helper lemmas about the crawl loop ----------

theorem mem_upsert (store : List PageRow) (now : Nat) (url t c : Str) (r : PageRow)
    (h : r ∈ upsert_page store now url t c) : r ∈ store ∨ r.url = url := by
  unfold upsert_page at h
  split at h
  · rcases List.mem_map.mp h with ⟨r0, hr0, hre⟩
    by_cases h0 : r0.url = url
    · rw [if_pos h0] at hre
      right
      rw [← hre]
      exact h0
    · rw [if_neg h0] at hre
      left
      rwa [← hre]
  · rcases List.mem_append.mp h with h | h
    · exact Or.inl h
    · right
      rw [List.mem_singleton] at h
      rw [h]

theorem appendLinks_enqLog (pageUrl : Str) (hrefs : List Str) (visited : List Str)
    (root : Str) : ∀ queue enqLog,
    ∀ u ∈ (appendLinks pageUrl hrefs visited root queue enqLog).2,
      u ∈ enqLog ∨ inScope u root = true := by
  induction hrefs with
  | nil =>
    intro queue enqLog u hu
    exact Or.inl hu
  | cons h rest ih =>
    intro queue enqLog u hu
    rw [appendLinks] at hu
    split at hu
    · exact ih queue enqLog u hu
    · split at hu
      · exact Or.inl hu
      · rename_i normalized hnorm
        split at hu
        · exact Or.inl hu
        · rename_i p hp
          split at hu
          · rename_i hcond
            rcases ih _ _ u hu with hin | hin
            · rcases List.mem_append.mp hin with hin | hin
              · exact Or.inl hin
              · right
                rw [List.mem_singleton] at hin
                subst hin
                unfold inScope
                rw [hp]
                exact hcond.1
            · exact Or.inr hin
          · exact ih _ _ u hu


theorem crawlStep_enqLog (env : CrawlEnv) (st : CrawlState) :
    ∀ u ∈ (stepState (crawlStep env st)).enqLog,
      u ∈ st.enqLog ∨ inScope u env.root = true := by
  simp only [crawlStep]
  split
  · exact fun u hu => Or.inl hu
  split
  · exact fun u hu => Or.inl hu
  rename_i url rest hq
  split
  · exact fun u hu => Or.inl hu
  split
  · exact fun u hu => Or.inl hu
  rename_i p hp
  split
  · exact fun u hu => Or.inl hu
  split
  · exact fun u hu => Or.inl hu
  repeat' split
  all_goals simp only [stepState]
  all_goals try exact fun u hu => Or.inl hu
  all_goals exact fun u hu => appendLinks_enqLog _ _ _ env.root _ _ u hu

theorem crawlStep_fetchLog (env : CrawlEnv) (st : CrawlState) :
    ∀ u ∈ (stepState (crawlStep env st)).fetchLog,
      u ∈ st.fetchLog ∨ inScope u env.root = true := by
  simp only [crawlStep]
  split
  · exact fun u hu => Or.inl hu
  split
  · exact fun u hu => Or.inl hu
  rename_i url rest hq
  split
  · exact fun u hu => Or.inl hu
  split
  · exact fun u hu => Or.inl hu
  rename_i p hp
  split
  · exact fun u hu => Or.inl hu
  split
  · exact fun u hu => Or.inl hu
  rename_i hsc hcf
  have hfetched : ∀ u ∈ st.fetchLog ++ [url],
      u ∈ st.fetchLog ∨ inScope u env.root = true := by
    intro u hu
    rcases List.mem_append.mp hu with hu | hu
    · exact Or.inl hu
    · right
      rw [List.mem_singleton] at hu
      subst hu
      unfold inScope
      rw [hp]
      exact not_not.mp hsc
  repeat' split
  all_goals simp only [stepState]
  all_goals exact fun u hu => hfetched u hu

theorem crawlStep_store (env : CrawlEnv) (st : CrawlState) :
    ∀ r ∈ (stepState (crawlStep env st)).store,
      r ∈ st.store ∨ inScope r.url env.root = true := by
  simp only [crawlStep]
  split
  · exact fun r hr => Or.inl hr
  split
  · exact fun r hr => Or.inl hr
  rename_i url rest hq
  split
  · exact fun r hr => Or.inl hr
  split
  · exact fun r hr => Or.inl hr
  rename_i p hp
  split
  · exact fun r hr => Or.inl hr
  split
  · exact fun r hr => Or.inl hr
  rename_i hsc hcf
  have hscope : inScope url env.root = true := by
    unfold inScope
    rw [hp]
    exact not_not.mp hsc
  have hup : ∀ now t c, ∀ r ∈ upsert_page st.store now url t c,
      r ∈ st.store ∨ inScope r.url env.root = true := by
    intro now t c r hr
    rcases mem_upsert st.store now url t c r hr with hr | hr
    · exact Or.inl hr
    · right
      rw [hr]
      exact hscope
  repeat' split
  all_goals simp only [stepState]
  all_goals try exact fun r hr => Or.inl hr
  all_goals exact fun r hr => hup _ _ _ r hr

theorem crawlStep_visited (env : CrawlEnv) (st : CrawlState) :
    (stepState (crawlStep env st)).visited = st.visited ∨
      ((stepState (crawlStep env st)).visited.length = st.visited.length + 1 ∧
        st.visited.length < env.maxPages) := by
  simp only [crawlStep]
  split
  · exact Or.inl rfl
  rename_i hguard
  have hlt : st.visited.length < env.maxPages := by
    rcases not_or.mp hguard with ⟨_, h2⟩
    rcases not_or.mp h2 with ⟨h2a, _⟩
    exact not_not.mp h2a
  split
  · exact Or.inl rfl
  rename_i url rest hq
  split
  · exact Or.inl rfl
  repeat' split
  all_goals simp only [stepState]
  all_goals exact Or.inr ⟨rfl, hlt⟩

theorem crawlStep_measure (env : CrawlEnv) (st : CrawlState) :
    ∀ stC, crawlStep env st = .cont stC →
      (stC.visited = st.visited ∧ stC.queue.length < st.queue.length) ∨
      stC.visited.length = st.visited.length + 1 := by
  intro stC hC
  simp only [crawlStep] at hC
  split at hC
  · simp at hC
  split at hC
  · simp at hC
  rename_i url rest hq
  split at hC
  · rw [StepOut.cont.injEq] at hC
    subst hC
    left
    refine ⟨rfl, ?_⟩
    rw [hq]
    simp
  split at hC
  · simp at hC
  rename_i p hp
  repeat' split at hC
  all_goals try (simp at hC)
  all_goals subst hC
  all_goals right
  all_goals rfl

theorem crawlStep_exit_of_budget (env : CrawlEnv) (st : CrawlState)
    (h : ¬ st.visited.length < env.maxPages) : crawlStep env st = .exit st := by
  unfold crawlStep
  rw [if_pos (Or.inr (Or.inl h))]

theorem crawlStep_exit_of_nil (env : CrawlEnv) (st : CrawlState)
    (h : st.queue = []) : crawlStep env st = .exit st := by
  unfold crawlStep
  rw [if_pos (Or.inl h)]

theorem crawlRun_scope (env : CrawlEnv) (fuel : Nat) :
    ∀ st st', crawlRun env fuel st = some st' →
      (∀ u ∈ st'.enqLog, u ∈ st.enqLog ∨ inScope u env.root = true) ∧
      (∀ u ∈ st'.fetchLog, u ∈ st.fetchLog ∨ inScope u env.root = true) ∧
      (∀ r ∈ st'.store, r ∈ st.store ∨ inScope r.url env.root = true) ∧
      (st.visited.length ≤ env.maxPages → st'.visited.length ≤ env.maxPages) := by
  induction fuel with
  | zero =>
    intro st st' h
    simp [crawlRun] at h
  | succ fuel ih =>
    intro st st' h
    rw [crawlRun] at h
    have he := crawlStep_enqLog env st
    have hf := crawlStep_fetchLog env st
    have hs := crawlStep_store env st
    have hv := crawlStep_visited env st
    cases hc : crawlStep env st with
    | exit stE =>
      rw [hc] at h he hf hs hv
      simp only [stepState] at he hf hs hv
      simp only [Option.some.injEq] at h
      subst h
      refine ⟨he, hf, hs, ?_⟩
      intro hb
      rcases hv with hv | hv
      · rw [hv]; exact hb
      · omega
    | cont stC =>
      rw [hc] at h he hf hs hv
      simp only [stepState] at he hf hs hv
      simp only at h
      obtain ⟨ihe, ihf, ihs, ihv⟩ := ih stC st' h
      refine ⟨?_, ?_, ?_, ?_⟩
      · intro u hu
        rcases ihe u hu with hu2 | hu2
        · exact he u hu2
        · exact Or.inr hu2
      · intro u hu
        rcases ihf u hu with hu2 | hu2
        · exact hf u hu2
        · exact Or.inr hu2
      · intro r hr
        rcases ihs r hr with hr2 | hr2
        · exact hs r hr2
        · exact Or.inr hr2
      · intro hb
        refine ihv ?_
        rcases hv with hv | hv
        · rw [hv]; exact hb
        · omega

theorem crawlRun_exists_fuel (env : CrawlEnv) :
    ∀ k q st, env.maxPages - st.visited.length ≤ k → st.queue.length ≤ q →
      ∃ fuel st', crawlRun env fuel st = some st' := by
  intro k
  induction k with
  | zero =>
    intro q st hk _
    have hstep : crawlStep env st = .exit st :=
      crawlStep_exit_of_budget env st (by omega)
    exact ⟨1, st, by simp [crawlRun, hstep]⟩
  | succ k ihk =>
    intro q
    induction q with
    | zero =>
      intro st _ hq
      have hnil : st.queue = [] := List.length_eq_zero.mp (Nat.le_zero.mp hq)
      have hstep : crawlStep env st = .exit st := crawlStep_exit_of_nil env st hnil
      exact ⟨1, st, by simp [crawlRun, hstep]⟩
    | succ q ihq =>
      intro st hk hq
      cases hc : crawlStep env st with
      | exit stE => exact ⟨1, stE, by simp [crawlRun, hc]⟩
      | cont stC =>
        rcases crawlStep_measure env st stC hc with ⟨hveq, hql⟩ | hv1
        · obtain ⟨fuel, st', hrun⟩ := ihq stC (by rw [hveq]; exact hk) (by omega)
          exact ⟨fuel + 1, st', by simp [crawlRun, hc, hrun]⟩
        · obtain ⟨fuel, st', hrun⟩ :=
            ihk stC.queue.length stC (by omega) (le_refl _)
          exact ⟨fuel + 1, st', by simp [crawlRun, hc, hrun]⟩

-- ---------- C4 ----------

/-- C4: for every page budget and every (finite) fetch/link behavior the crawl loop
terminates — some finite fuel reaches loop exit — having visited at most `maxPages`
URLs (none at all when the budget is 0), after which the `finally` block reports the
job as no longer running. -/
theorem crawl_terminates_within_budget (env : CrawlEnv) (seed : Str)
    (store0 : List PageRow) :
    ∃ fuel st', crawlRun env fuel (initCrawl seed store0) = some st' ∧
      st'.visited.length ≤ env.maxPages ∧
      (env.maxPages = 0 → st'.visited = []) ∧
      (scrapeFinal st').running = false := by
  obtain ⟨fuel, st', hrun⟩ := crawlRun_exists_fuel env env.maxPages 1
    (initCrawl seed store0) (by simp [initCrawl]) (by simp [initCrawl])
  refine ⟨fuel, st', hrun, ?_, ?_, rfl⟩
  · exact (crawlRun_scope env fuel _ _ hrun).2.2.2 (by simp [initCrawl])
  · intro h0
    cases fuel with
    | zero => simp [crawlRun] at hrun
    | succ fuel =>
      rw [crawlRun] at hrun
      rw [crawlStep_exit_of_budget env _ (by simp [initCrawl, h0])] at hrun
      simp only [Option.some.injEq] at hrun
      subst hrun
      rfl

-- ---------- C1 ----------

/-- C1 counterexample: the scope check accepts `evilkiit.ac.in` for root
`kiit.ac.in` although that host neither equals the root domain nor is a subdomain
of it; and in a concrete crawl whose seed page links to that host, the link IS
enqueued, fetched, and stored in the Page Store. -/
theorem scope_suffix_counterexample :
    inScope "https://evilkiit.ac.in/x".data "kiit.ac.in".data = true ∧
    inScopeSpec "https://evilkiit.ac.in/x".data "kiit.ac.in".data = false ∧
    (crawlRun
        { fetch := fun u =>
            if u = "https://kiit.ac.in/".data then
              FetchResult.htmlDoc (some "KIIT".data) "Welcome".data
                ["https://evilkiit.ac.in/x".data]
            else FetchResult.htmlDoc (some "Evil".data) "gotcha".data [],
          canFetch := fun _ => true, stopped := fun _ => false,
          root := "kiit.ac.in".data, maxPages := 2 }
        5 (initCrawl "https://kiit.ac.in/".data [])).map
      (fun st => (st.enqLog, st.fetchLog, st.store.map (fun r => r.url)))
      = some (["https://evilkiit.ac.in/x".data],
              ["https://kiit.ac.in/".data, "https://evilkiit.ac.in/x".data],
              ["https://kiit.ac.in/".data, "https://evilkiit.ac.in/x".data]) := by
  refine ⟨by decide, by decide, by rfl⟩

/-- C1 amended: the scope check is plain string-suffix matching on the parsed
netloc (so a host like `evilkiit.ac.in` is accepted for root `kiit.ac.in`), and —
in that suffix sense — it is sound for the crawl: along any run of the loop, every
link the link loop enqueues, every URL passed to the fetcher, and every page newly
stored passes the suffix check against the root. -/
theorem crawl_scope_suffix (env : CrawlEnv) (fuel : Nat) (st st' : CrawlState)
    (h : crawlRun env fuel st = some st') :
    (∀ u root, inScope u root = true ↔
        ∃ p, urlparse u [] = .ok p ∧ root.isSuffixOf p.netloc = true) ∧
    (∀ u ∈ st'.enqLog, u ∈ st.enqLog ∨ inScope u env.root = true) ∧
    (∀ u ∈ st'.fetchLog, u ∈ st.fetchLog ∨ inScope u env.root = true) ∧
    (∀ r ∈ st'.store, r ∈ st.store ∨ inScope r.url env.root = true) := by
  obtain ⟨he, hf, hs, _⟩ := crawlRun_scope env fuel st st' h
  refine ⟨?_, he, hf, hs⟩
  intro u root
  unfold inScope
  cases hp : urlparse u [] with
  | error e =>
    simp only [Bool.false_eq_true, false_iff]
    rintro ⟨p, hp2, _⟩
    exact absurd hp2 (by simp)
  | ok p =>
    constructor
    · intro hsuf
      exact ⟨p, rfl, hsuf⟩
    · rintro ⟨p2, hp2, hsuf⟩
      rw [Except.ok.injEq] at hp2
      rw [hp2]
      exact hsuf

/-- Witness for C1's amended statement: the suffix characterization extracted at a
concrete URL and root via a trivially terminating run. -/
theorem crawl_scope_suffix_witness :
    inScope "https://a.kiit.ac.in/x".data "kiit.ac.in".data = true ↔
      ∃ p, urlparse "https://a.kiit.ac.in/x".data [] = .ok p ∧
        ("kiit.ac.in".data).isSuffixOf p.netloc = true :=
  (crawl_scope_suffix
    { fetch := fun _ => FetchResult.err, canFetch := fun _ => true,
      stopped := fun _ => true, root := "r".data, maxPages := 0 }
    1 (initCrawl "s".data []) (initCrawl "s".data []) (by rfl)).1
    "https://a.kiit.ac.in/x".data "kiit.ac.in".data

-- ---------- helper lemmas toward C7 (URL reparsing) ----------

theorem takeWhile_all {p : Char → Bool} {l : Str} (h : ∀ c ∈ l, p c) :
    l.takeWhile p = l := by
  induction l with
  | nil => rfl
  | cons c rest ih =>
    rw [List.takeWhile_cons, if_pos (h c (List.mem_cons_self c rest))]
    rw [ih fun x hx => h x (List.mem_cons_of_mem c hx)]

theorem takeWhile_append_stop {p : Char → Bool} {l1 : Str} (a : Char) (l2 : Str)
    (h1 : ∀ c ∈ l1, p c) (h2 : ¬ p a) :
    (l1 ++ a :: l2).takeWhile p = l1 ∧ (l1 ++ a :: l2).dropWhile p = a :: l2 := by
  induction l1 with
  | nil =>
    constructor
    · rw [List.nil_append, List.takeWhile_cons, if_neg h2]
    · rw [List.nil_append, List.dropWhile_cons, if_neg h2]
  | cons c rest ih =>
    obtain ⟨iht, ihd⟩ := ih fun x hx => h1 x (List.mem_cons_of_mem c hx)
    have hc : p c := h1 c (List.mem_cons_self c rest)
    constructor
    · rw [List.cons_append, List.takeWhile_cons, if_pos hc, iht]
    · rw [List.cons_append, List.dropWhile_cons, if_pos hc, ihd]

theorem splitSep_fst (sep : Char) (l : Str) :
    (splitSep sep l).1 = l.takeWhile (fun c => c ≠ sep) := by
  induction l with
  | nil => rfl
  | cons c rest ih =>
    by_cases h : c = sep
    · rw [splitSep, if_pos h, List.takeWhile_cons]
      rw [if_neg (by simpa using h)]
    · rw [splitSep, if_neg h, List.takeWhile_cons]
      rw [if_pos (by simpa using h)]
      simpa using ih

theorem splitSep_not_mem (sep : Char) (l : Str) (h : sep ∉ l) :
    splitSep sep l = (l, []) := by
  induction l with
  | nil => rfl
  | cons c rest ih =>
    have hc : c ≠ sep := fun he => h (he ▸ List.mem_cons_self c rest)
    rw [splitSep, if_neg (fun he => hc he)]
    rw [ih fun hm => h (List.mem_cons_of_mem c hm)]

theorem schemeSplit_snd_subset (u d : Str) : ∀ ch ∈ (schemeSplit u d).2, ch ∈ u := by
  simp only [schemeSplit]
  split
  · rename_i x after heq
    split
    · intro ch hch
      have h1 : ch ∈ u.dropWhile (fun c => decide (c ≠ ':')) := by
        rw [heq]
        exact List.mem_cons_of_mem _ hch
      exact List.dropWhile_subset _ h1
    · exact fun ch hch => hch
  · exact fun ch hch => hch

theorem urlClean_mem (u : Str) :
    ∀ ch ∈ urlClean u, isUnsafeUrlByte ch = false := by
  intro ch hch
  unfold urlClean at hch
  have := (List.mem_filter.mp hch).2
  simpa using this

theorem schemeChars_facts :
    ∀ c ∈ schemeChars, pyLower c ∈ schemeChars ∧ pyLower (pyLower c) = pyLower c ∧
      (pyLower c).toNat ≤ 127 ∧ c ≠ ':' ∧ c ≠ '/' ∧ c ≠ '?' ∧ c ≠ '#' ∧
      isUnsafeUrlByte c = false ∧ isUnsafeUrlByte (pyLower c) = false ∧
      ¬ isC0OrSpace (pyLower c) = true := by decide

theorem schemeChars_alpha :
    ∀ c ∈ schemeChars, c.isAlpha = true → (pyLower c).isAlpha = true := by decide

theorem validToken_of_detect (pre : Str) (hne : pre ≠ [])
    (hhead : (pre.headD 'a').toNat ≤ 127 ∧ (pre.headD 'a').isAlpha = true)
    (hall : ∀ c ∈ pre, c ∈ schemeChars) :
    validToken (pre.map pyLower) := by
  refine ⟨?_, ?_, ?_, ?_, ?_⟩
  · simpa using hne
  · cases pre with
    | nil => exact absurd rfl hne
    | cons c rest =>
      have hc := schemeChars_facts c (hall c (List.mem_cons_self c rest))
      simpa using hc.2.2.1
  · cases pre with
    | nil => exact absurd rfl hne
    | cons c rest =>
      have hc := hall c (List.mem_cons_self c rest)
      have ha : c.isAlpha = true := by simpa using hhead.2
      simpa using schemeChars_alpha c hc ha
  · intro c hc
    rcases List.mem_map.mp hc with ⟨c0, hc0, he⟩
    rw [← he]
    exact (schemeChars_facts c0 (hall c0 hc0)).1
  · rw [List.map_map]
    refine List.map_congr_left ?_
    intro c hc
    exact (schemeChars_facts c (hall c hc)).2.1

theorem schemeSplit_fst_shape (u1 dflt : Str) :
    (schemeSplit u1 dflt).1 = dflt ∨ validToken (schemeSplit u1 dflt).1 := by
  simp only [schemeSplit]
  split
  · rename_i x after heq
    split
    · rename_i hcond
      right
      refine validToken_of_detect _ hcond.1 ⟨hcond.2.1, hcond.2.2.1⟩ ?_
      intro c hc
      have h1 := List.all_eq_true.mp hcond.2.2.2 c hc
      simpa using h1
    · exact Or.inl rfl
  · exact Or.inl rfl

theorem dropWhile_head_false (p : Char → Bool) (l : Str) (c : Char) (t : Str)
    (h : l.dropWhile p = c :: t) : p c = false := by
  induction l with
  | nil => simp [List.dropWhile] at h
  | cons a rest ih =>
    rw [List.dropWhile_cons] at h
    by_cases hp : p a
    · rw [if_pos hp] at h
      exact ih h
    · rw [if_neg hp] at h
      rw [List.cons.injEq] at h
      rw [← h.1]
      simpa using hp

theorem urlsplit_shape (u d : Str) (s : SplitResult) (h : urlsplit u d = .ok s) :
    (∀ ch ∈ s.netloc, isNetlocEnd ch = false) ∧
    (∀ ch ∈ s.path, ch ≠ '?' ∧ ch ≠ '#') ∧
    (s.netloc ≠ [] → s.path = [] ∨ s.path.take 1 = ['/']) ∧
    (∀ ch ∈ s.netloc, isUnsafeUrlByte ch = false) ∧
    (∀ ch ∈ s.path, isUnsafeUrlByte ch = false) ∧
    (s.scheme = schemeClean d ∨ validToken s.scheme) := by
  simp only [urlsplit] at h
  split at h
  · -- the "//"-netloc branch
    rename_i htake
    split at h
    · exact absurd h (by simp)
    rename_i hbr
    rw [Except.ok.injEq] at h
    subst h
    refine ⟨?_, ?_, ?_, ?_, ?_, ?_⟩
    · intro ch hch
      simpa using List.mem_takeWhile_imp hch
    · intro ch hch
      simp only [splitSep_fst] at hch
      have h1 : ch ≠ '?' := by simpa using List.mem_takeWhile_imp hch
      have h2 := List.takeWhile_subset _ hch
      simp only [splitSep_fst] at h2
      have h3 : ch ≠ '#' := by simpa using List.mem_takeWhile_imp h2
      exact ⟨h1, h3⟩
    · intro _
      simp only [splitSep_fst]
      cases hcase : ((schemeSplit (urlClean u) (schemeClean d)).2.drop 2).dropWhile
          (fun c => decide (¬ isNetlocEnd c = true)) with
      | nil =>
        left
        rfl
      | cons c t =>
        have hcend : isNetlocEnd c = true := by
          have := dropWhile_head_false _ _ _ _ hcase
          simpa using this
        have hc3 : c = '/' ∨ c = '?' ∨ c = '#' := by
          simpa [isNetlocEnd] using hcend
        rcases hc3 with hc | hc | hc
        · subst hc
          right
          rw [List.takeWhile_cons, if_pos (by decide), List.takeWhile_cons,
            if_pos (by decide)]
          rfl
        · subst hc
          left
          rw [List.takeWhile_cons, if_pos (by decide), List.takeWhile_cons,
            if_neg (by decide)]
        · subst hc
          left
          rw [List.takeWhile_cons, if_neg (by decide)]
          rfl
    · intro ch hch
      have h1 := List.takeWhile_subset _ hch
      have h2 := List.drop_subset 2 _ h1
      exact urlClean_mem u ch (schemeSplit_snd_subset _ _ ch h2)
    · intro ch hch
      simp only [splitSep_fst] at hch
      have h1 := List.takeWhile_subset _ hch
      simp only [splitSep_fst] at h1
      have h2 := List.takeWhile_subset _ h1
      have h3 := List.dropWhile_subset _ h2
      have h4 := List.drop_subset 2 _ h3
      exact urlClean_mem u ch (schemeSplit_snd_subset _ _ ch h4)
    · exact schemeSplit_fst_shape _ _
  · -- no netloc
    rename_i htake
    split at h
    · exact absurd h (by simp)
    rename_i hbr
    rw [Except.ok.injEq] at h
    subst h
    refine ⟨?_, ?_, ?_, ?_, ?_, ?_⟩
    · intro ch hch
      simp at hch
    · intro ch hch
      simp only [splitSep_fst] at hch
      have h1 : ch ≠ '?' := by simpa using List.mem_takeWhile_imp hch
      have h2 := List.takeWhile_subset _ hch
      simp only [splitSep_fst] at h2
      have h3 : ch ≠ '#' := by simpa using List.mem_takeWhile_imp h2
      exact ⟨h1, h3⟩
    · intro hnet
      exact absurd rfl hnet
    · intro ch hch
      simp at hch
    · intro ch hch
      simp only [splitSep_fst] at hch
      have h1 := List.takeWhile_subset _ hch
      simp only [splitSep_fst] at h1
      have h2 := List.takeWhile_subset _ h1
      exact urlClean_mem u ch (schemeSplit_snd_subset _ _ ch h2)
    · exact schemeSplit_fst_shape _ _

theorem takeWhile_append_of_stop {p : Char → Bool} {l1 : Str} (l2 : Str)
    (h : ∃ a ∈ l1, ¬ p a) : (l1 ++ l2).takeWhile p = l1.takeWhile p := by
  induction l1 with
  | nil => simp at h
  | cons c rest ih =>
    rw [List.cons_append, List.takeWhile_cons, List.takeWhile_cons]
    by_cases hc : p c
    · rw [if_pos hc, if_pos hc]
      rcases h with ⟨a, ha, hpa⟩
      rcases List.mem_cons.mp ha with ha | ha
      · exact absurd (ha ▸ hc) hpa
      · rw [ih ⟨a, ha, hpa⟩]
    · rw [if_neg hc, if_neg hc]

theorem pfx_take_one {l p : Str} (h : l <+: p) (hne : l ≠ []) :
    l.take 1 = p.take 1 := by
  obtain ⟨t, rfl⟩ := h
  cases l with
  | nil => exact absurd rfl hne
  | cons c rest => rfl

theorem lastSeg_decomp (p : Str) :
    p = (p.reverse.dropWhile (fun c => decide (c ≠ '/'))).reverse ++
        (p.reverse.takeWhile (fun c => decide (c ≠ '/'))).reverse := by
  have h := List.takeWhile_append_dropWhile
    (p := fun c => decide (c ≠ '/')) (l := p.reverse)
  have h2 := congrArg List.reverse h.symm
  rw [List.reverse_reverse] at h2
  rw [List.reverse_append] at h2
  exact h2

theorem stem_eq (p : Str) :
    p.take (p.length -
        ((p.reverse.takeWhile (fun c => decide (c ≠ '/'))).reverse).length) =
      (p.reverse.dropWhile (fun c => decide (c ≠ '/'))).reverse := by
  set A := (p.reverse.dropWhile (fun c => decide (c ≠ '/'))).reverse with hA
  set B := (p.reverse.takeWhile (fun c => decide (c ≠ '/'))).reverse with hB
  have hd : p = A ++ B := lastSeg_decomp p
  have hlen : p.length - B.length = A.length := by
    rw [hd, List.length_append]
    omega
  rw [hlen, hd]
  exact List.take_left A B

theorem splitparams_fst_pfx (p : Str) : (splitparams p).1 <+: p := by
  unfold splitparams
  by_cases hs : '/' ∈ p
  · rw [if_pos hs]
    simp only
    by_cases hsemi : ';' ∈ (p.reverse.takeWhile (fun c => decide (c ≠ '/'))).reverse
    · rw [if_pos hsemi]
      simp only
      rw [stem_eq]
      have hd := lastSeg_decomp p
      rw [splitSep_fst]
      obtain ⟨t, ht⟩ := List.takeWhile_prefix
        (l := (p.reverse.takeWhile (fun c => decide (c ≠ '/'))).reverse)
        (p := fun c => decide (c ≠ ';'))
      refine ⟨t, ?_⟩
      rw [List.append_assoc, ht, ← hd]
    · rw [if_neg hsemi]
  · rw [if_neg hs]
    rw [splitSep_fst]
    exact List.takeWhile_prefix _

theorem noSemiLast_of_not_mem {p : Str} (h : ';' ∉ p) : noSemiLast p := by
  intro hmem
  exact h (List.mem_reverse.mp (List.takeWhile_subset _ hmem))

theorem splitparams_noSemiLast (p : Str) : noSemiLast (splitparams p).1 := by
  unfold splitparams
  by_cases hs : '/' ∈ p
  · rw [if_pos hs]
    simp only
    by_cases hsemi : ';' ∈ (p.reverse.takeWhile (fun c => decide (c ≠ '/'))).reverse
    · rw [if_pos hsemi]
      simp only
      rw [stem_eq, splitSep_fst]
      set B := (p.reverse.takeWhile (fun c => decide (c ≠ '/'))).reverse with hB
      set A := (p.reverse.dropWhile (fun c => decide (c ≠ '/'))).reverse with hA
      set a := B.takeWhile (fun c => decide (c ≠ ';')) with ha
      -- A ends in '/', a holds neither '/' nor ';'
      have hBnoslash : ∀ c ∈ B, c ≠ '/' := by
        intro c hc
        have := List.mem_takeWhile_imp (List.mem_reverse.mp hc)
        simpa using this
      have hanoslash : ∀ c ∈ a, c ≠ '/' := fun c hc =>
        hBnoslash c (List.takeWhile_subset _ hc)
      have hanosemi : ∀ c ∈ a, c ≠ ';' := by
        intro c hc
        have := List.mem_takeWhile_imp hc
        simpa using this
      have hArev : A.reverse = p.reverse.dropWhile (fun c => decide (c ≠ '/')) := by
        rw [hA, List.reverse_reverse]
      have hslashp : '/' ∈ p.reverse := List.mem_reverse.mpr hs
      have hAne : A.reverse ≠ [] := by
        rw [hArev]
        intro hnil
        have hall := (dropWhile_eq_nil_iff_all _ _).mp hnil
        have := hall '/' hslashp
        simp at this
      intro hmem
      rw [List.reverse_append] at hmem
      cases hcA : A.reverse with
      | nil => exact hAne hcA
      | cons c0 t0 =>
        have hc0 : c0 = '/' := by
          have := dropWhile_head_false _ _ _ _ (hArev ▸ hcA)
          simpa using this
        rw [hcA, hc0] at hmem
        rw [(takeWhile_append_stop '/' t0
          (fun c hc => by simpa using hanoslash c (List.mem_reverse.mp hc))
          (by simp)).1] at hmem
        exact hanosemi ';' (List.mem_reverse.mp hmem) rfl
    · rw [if_neg hsemi]
      intro hmem
      exact hsemi (List.mem_reverse.mpr hmem)
  · rw [if_neg hs]
    rw [splitSep_fst]
    refine noSemiLast_of_not_mem ?_
    intro hmem
    have := List.mem_takeWhile_imp hmem
    simp at this

theorem urlparse_shape (u d : Str) (c : ParseResult) (h : urlparse u d = .ok c) :
    (∀ ch ∈ c.netloc, isNetlocEnd ch = false) ∧
    (∀ ch ∈ c.path, ch ≠ '?' ∧ ch ≠ '#') ∧
    (c.netloc ≠ [] → c.path = [] ∨ c.path.take 1 = ['/']) ∧
    (∀ ch ∈ c.netloc, isUnsafeUrlByte ch = false) ∧
    (∀ ch ∈ c.path, isUnsafeUrlByte ch = false) ∧
    (c.scheme = schemeClean d ∨ validToken c.scheme) ∧
    (c.scheme ∈ usesParams → noSemiLast c.path) := by
  unfold urlparse at h
  cases hs : urlsplit u d with
  | error e =>
    rw [hs] at h
    exact absurd h (by simp)
  | ok s =>
    rw [hs] at h
    obtain ⟨hn, hp, hsl, hun, hup, hsch⟩ := urlsplit_shape u d s hs
    simp only [Except.ok.injEq] at h
    subst h
    simp only
    have hpfx : (if s.scheme ∈ usesParams ∧ ';' ∈ s.path then splitparams s.path
        else (s.path, [])).1 <+: s.path := by
      split
      · exact splitparams_fst_pfx s.path
      · exact List.prefix_refl s.path
    refine ⟨hn, ?_, ?_, hun, ?_, hsch, ?_⟩
    · exact fun ch hch => hp ch (hpfx.subset hch)
    · intro hnet
      by_cases hnil : (if s.scheme ∈ usesParams ∧ ';' ∈ s.path then
          splitparams s.path else (s.path, [])).1 = []
      · exact Or.inl hnil
      · right
        rw [pfx_take_one hpfx hnil]
        rcases hsl hnet with hsp | hsp
        · exfalso
          apply hnil
          rw [hsp]
          simp
        · exact hsp
    · exact fun ch hch => hup ch (hpfx.subset hch)
    · split
      · exact fun _ => splitparams_noSemiLast s.path
      · rename_i hcond
        intro hin
        by_cases hsemi : ';' ∈ s.path
        · exact absurd ⟨hin, hsemi⟩ hcond
        · exact noSemiLast_of_not_mem hsemi

theorem schemeChars_not_c0 : ∀ c ∈ schemeChars, isC0OrSpace c = false := by decide

theorem schemeChars_not_colon : ∀ c ∈ schemeChars, c ≠ ':' := by decide

theorem schemeChars_not_unsafe2 : ∀ c ∈ schemeChars, isUnsafeUrlByte c = false := by
  decide

theorem urlClean_eq_self (u : Str) (h0 : isC0OrSpace (u.headD 'A') = false)
    (hall : ∀ ch ∈ u, isUnsafeUrlByte ch = false) : urlClean u = u := by
  unfold urlClean
  have hdrop : u.dropWhile isC0OrSpace = u := by
    cases u with
    | nil => rfl
    | cons c rest =>
      rw [List.dropWhile_cons, if_neg]
      simp only [List.headD] at h0
      simp [h0]
  rw [hdrop]
  rw [List.filter_eq_self.mpr]
  intro a ha
  simp [hall a ha]

theorem noSemiLast_nil : noSemiLast [] := by
  intro h
  simp at h

theorem splitparams_noop (q : Str) (h : noSemiLast q) : splitparams q = (q, []) := by
  simp only [splitparams]
  by_cases hs : '/' ∈ q
  · have hnot : ';' ∉ (q.reverse.takeWhile (fun c => c ≠ '/')).reverse := by
      intro hsm
      exact h (List.mem_reverse.mp hsm)
    rw [if_pos hs, if_neg hnot]
  · rw [if_neg hs]
    have hrev : ';' ∉ q := by
      intro hm
      apply h
      rw [takeWhile_all]
      · exact List.mem_reverse.mpr hm
      · intro c hc
        have hcs : c ≠ '/' := by
          intro he
          exact hs (he ▸ List.mem_reverse.mp hc)
        simpa using hcs
    exact splitSep_not_mem ';' q hrev

theorem dropWhile_params_noop (n p : Str)
    (hn : ∀ ch ∈ n, isNetlocEnd ch = false)
    (hp : ∀ ch ∈ p, ch ≠ '?' ∧ ch ≠ '#')
    (hslash : n ≠ [] → p = [] ∨ p.take 1 = ['/'])
    (hsem : noSemiLast p) :
    noSemiLast ((n ++ p).dropWhile (fun c => ¬ isNetlocEnd c)) := by
  by_cases hn0 : n = []
  · subst hn0
    rw [List.nil_append]
    by_cases hsl : '/' ∈ p
    · have hsplit := List.takeWhile_append_dropWhile
        (p := fun c => ¬ isNetlocEnd c) (l := p)
      have hnot : '/' ∉ p.takeWhile (fun c => ¬ isNetlocEnd c) := by
        intro hmem
        have := List.mem_takeWhile_imp hmem
        simp [isNetlocEnd] at this
      have hsl2 : '/' ∈ p.dropWhile (fun c => ¬ isNetlocEnd c) := by
        have hor : '/' ∈ p.takeWhile (fun c => ¬ isNetlocEnd c) ∨
            '/' ∈ p.dropWhile (fun c => ¬ isNetlocEnd c) := by
          rw [← List.mem_append, hsplit]
          exact hsl
        rcases hor with hor | hor
        · exact absurd hor hnot
        · exact hor
      have hstop : ∃ a ∈ (p.dropWhile (fun c => ¬ isNetlocEnd c)).reverse,
          ¬ (decide (a ≠ '/') = true) := by
        refine ⟨'/', List.mem_reverse.mpr hsl2, by simp⟩
      intro hmem
      apply hsem
      have hprev : p.reverse =
          (p.dropWhile (fun c => ¬ isNetlocEnd c)).reverse ++
          (p.takeWhile (fun c => ¬ isNetlocEnd c)).reverse := by
        rw [← List.reverse_append, hsplit]
      rw [hprev, takeWhile_append_of_stop _ hstop]
      exact hmem
    · have hall : p.dropWhile (fun c => ¬ isNetlocEnd c) = [] := by
        rw [dropWhile_eq_nil_iff_all]
        intro c hc
        have h1 := hp c hc
        have h2 : c ≠ '/' := fun he => hsl (he ▸ hc)
        simp [isNetlocEnd, h1.1, h1.2, h2]
      rw [hall]
      exact noSemiLast_nil
  · rcases hslash hn0 with hpe | hpt
    · subst hpe
      rw [List.append_nil]
      have hall : n.dropWhile (fun c => ¬ isNetlocEnd c) = [] := by
        rw [dropWhile_eq_nil_iff_all]
        intro c hc
        simp [hn c hc]
      rw [hall]
      exact noSemiLast_nil
    · cases p with
      | nil => simp at hpt
      | cons c p2 =>
        have hc : c = '/' := by simpa using hpt
        subst hc
        have hstop := @takeWhile_append_stop (fun c => ¬ isNetlocEnd c) n '/' p2
          (fun ch hch => by simp [hn ch hch]) (by simp [isNetlocEnd])
        rw [hstop.2]
        exact hsem

theorem urlsplit_reassemble (s0 n p : Str) (d : Str)
    (hs0 : validToken s0)
    (hn : ∀ ch ∈ n, isNetlocEnd ch = false)
    (hp : ∀ ch ∈ p, ch ≠ '?' ∧ ch ≠ '#')
    (hun : ∀ ch ∈ n, isUnsafeUrlByte ch = false)
    (hup : ∀ ch ∈ p, isUnsafeUrlByte ch = false) :
    urlsplit (s0 ++ ':' :: '/' :: '/' :: (n ++ p)) d =
      if badBrackets ((n ++ p).takeWhile (fun c => ¬ isNetlocEnd c)) then .error ()
      else .ok ⟨s0, (n ++ p).takeWhile (fun c => ¬ isNetlocEnd c),
                (n ++ p).dropWhile (fun c => ¬ isNetlocEnd c), [], []⟩ := by
  obtain ⟨hne, hh1, hh2, hmem, hlow⟩ := hs0
  have hXn : ∀ ch ∈ n ++ p, ch ≠ '#' := by
    intro ch hch
    rcases List.mem_append.mp hch with hch | hch
    · have hne2 := hn ch hch
      intro he
      rw [he] at hne2
      simp [isNetlocEnd] at hne2
    · exact (hp ch hch).2
  have hXq : ∀ ch ∈ n ++ p, ch ≠ '?' := by
    intro ch hch
    rcases List.mem_append.mp hch with hch | hch
    · have hne2 := hn ch hch
      intro he
      rw [he] at hne2
      simp [isNetlocEnd] at hne2
    · exact (hp ch hch).1
  have hclean : urlClean (s0 ++ ':' :: '/' :: '/' :: (n ++ p))
      = s0 ++ ':' :: '/' :: '/' :: (n ++ p) := by
    apply urlClean_eq_self
    · cases s0 with
      | nil => exact absurd rfl hne
      | cons c rest =>
        have hc : c ∈ schemeChars := hmem c (List.mem_cons_self c rest)
        rw [List.cons_append]
        exact schemeChars_not_c0 c hc
    · intro ch hch
      rcases List.mem_append.mp hch with hch | hch
      · exact schemeChars_not_unsafe2 ch (hmem ch hch)
      · rcases List.mem_cons.mp hch with hch | hch
        · rw [hch]; rfl
        rcases List.mem_cons.mp hch with hch | hch
        · rw [hch]; rfl
        rcases List.mem_cons.mp hch with hch | hch
        · rw [hch]; rfl
        rcases List.mem_append.mp hch with hch | hch
        · exact hun ch hch
        · exact hup ch hch
  have htw := @takeWhile_append_stop (fun c => c ≠ ':') s0 ':' ('/' :: '/' :: (n ++ p))
    (fun c hc => by simpa using schemeChars_not_colon c (hmem c hc))
    (by simp)
  have hsch : schemeSplit (s0 ++ ':' :: '/' :: '/' :: (n ++ p)) (schemeClean d) =
      (s0, '/' :: '/' :: (n ++ p)) := by
    simp only [schemeSplit]
    rw [htw.1, htw.2]
    show (if s0 ≠ [] ∧ (s0.headD 'a').toNat ≤ 127 ∧ (s0.headD 'a').isAlpha
        ∧ s0.all (fun c => c ∈ schemeChars) then
          (s0.map pyLower, '/' :: '/' :: (n ++ p))
        else (schemeClean d, s0 ++ ':' :: '/' :: '/' :: (n ++ p)))
      = (s0, '/' :: '/' :: (n ++ p))
    rw [if_pos ⟨hne, hh1, hh2, List.all_eq_true.mpr
      (fun c hc => by simpa using hmem c hc)⟩, hlow]
  have hfr : splitSep '#' ((n ++ p).dropWhile (fun c => ¬ isNetlocEnd c))
      = ((n ++ p).dropWhile (fun c => ¬ isNetlocEnd c), []) := by
    apply splitSep_not_mem
    intro hmem2
    exact hXn '#' (List.dropWhile_subset _ hmem2) rfl
  have hqu : splitSep '?' ((n ++ p).dropWhile (fun c => ¬ isNetlocEnd c))
      = ((n ++ p).dropWhile (fun c => ¬ isNetlocEnd c), []) := by
    apply splitSep_not_mem
    intro hmem2
    exact hXq '?' (List.dropWhile_subset _ hmem2) rfl
  simp only [urlsplit]
  rw [hclean, hsch]
  show (if badBrackets ((n ++ p).takeWhile (fun c => ¬ isNetlocEnd c)) then
        (.error () : Except Unit SplitResult)
      else .ok ⟨s0, (n ++ p).takeWhile (fun c => ¬ isNetlocEnd c),
        (splitSep '?' (splitSep '#' ((n ++ p).dropWhile (fun c => ¬ isNetlocEnd c))).1).1,
        (splitSep '?' (splitSep '#' ((n ++ p).dropWhile (fun c => ¬ isNetlocEnd c))).1).2,
        (splitSep '#' ((n ++ p).dropWhile (fun c => ¬ isNetlocEnd c))).2⟩) =
      if badBrackets ((n ++ p).takeWhile (fun c => ¬ isNetlocEnd c)) then .error ()
      else .ok ⟨s0, (n ++ p).takeWhile (fun c => ¬ isNetlocEnd c),
        (n ++ p).dropWhile (fun c => ¬ isNetlocEnd c), [], []⟩
  have hq1 : splitSep '?' (splitSep '#' ((n ++ p).dropWhile (fun c => ¬ isNetlocEnd c))).1
      = ((n ++ p).dropWhile (fun c => ¬ isNetlocEnd c), []) := by
    rw [hfr]
    exact hqu
  rw [hq1, hfr]

theorem urlparse_reassemble (s0 n p : Str) (d : Str)
    (hs0 : validToken s0)
    (hn : ∀ ch ∈ n, isNetlocEnd ch = false)
    (hp : ∀ ch ∈ p, ch ≠ '?' ∧ ch ≠ '#')
    (hslash : n ≠ [] → p = [] ∨ p.take 1 = ['/'])
    (hun : ∀ ch ∈ n, isUnsafeUrlByte ch = false)
    (hup : ∀ ch ∈ p, isUnsafeUrlByte ch = false)
    (hsemi : s0 ∈ usesParams → noSemiLast p) :
    urlparse (s0 ++ ':' :: '/' :: '/' :: (n ++ p)) d =
      if badBrackets ((n ++ p).takeWhile (fun c => ¬ isNetlocEnd c)) then .error ()
      else .ok ⟨s0, (n ++ p).takeWhile (fun c => ¬ isNetlocEnd c),
                (n ++ p).dropWhile (fun c => ¬ isNetlocEnd c), [], [], []⟩ := by
  unfold urlparse
  rw [urlsplit_reassemble s0 n p d hs0 hn hp hun hup]
  by_cases hbr : badBrackets ((n ++ p).takeWhile (fun c => ¬ isNetlocEnd c))
  · rw [if_pos hbr, if_pos hbr]
  · rw [if_neg hbr, if_neg hbr]
    have hnoop : (if s0 ∈ usesParams ∧
          ';' ∈ (n ++ p).dropWhile (fun c => ¬ isNetlocEnd c) then
          splitparams ((n ++ p).dropWhile (fun c => ¬ isNetlocEnd c))
        else ((n ++ p).dropWhile (fun c => ¬ isNetlocEnd c), []))
        = ((n ++ p).dropWhile (fun c => ¬ isNetlocEnd c), []) := by
      by_cases hu : s0 ∈ usesParams
      · by_cases hm : ';' ∈ (n ++ p).dropWhile (fun c => ¬ isNetlocEnd c)
        · rw [if_pos ⟨hu, hm⟩]
          exact splitparams_noop _ (dropWhile_params_noop n p hn hp hslash (hsemi hu))
        · rw [if_neg (fun hc => hm hc.2)]
      · rw [if_neg (fun hc => hu hc.1)]
    show (Except.ok ⟨s0, (n ++ p).takeWhile (fun c => ¬ isNetlocEnd c),
        (if s0 ∈ usesParams ∧
            ';' ∈ (n ++ p).dropWhile (fun c => ¬ isNetlocEnd c) then
            splitparams ((n ++ p).dropWhile (fun c => ¬ isNetlocEnd c))
          else ((n ++ p).dropWhile (fun c => ¬ isNetlocEnd c), [])).1,
        (if s0 ∈ usesParams ∧
            ';' ∈ (n ++ p).dropWhile (fun c => ¬ isNetlocEnd c) then
            splitparams ((n ++ p).dropWhile (fun c => ¬ isNetlocEnd c))
          else ((n ++ p).dropWhile (fun c => ¬ isNetlocEnd c), [])).2,
        [], []⟩ : Except Unit ParseResult)
      = Except.ok ⟨s0, (n ++ p).takeWhile (fun c => ¬ isNetlocEnd c),
        (n ++ p).dropWhile (fun c => ¬ isNetlocEnd c), [], [], []⟩
    rw [hnoop]

theorem urlsplit_colon_head (X d : Str) :
    urlsplit (':' :: '/' :: '/' :: X) d = .ok ⟨schemeClean d, [],
      (splitSep '?' (splitSep '#'
        (':' :: '/' :: '/' :: (X.filter (fun c => ¬ isUnsafeUrlByte c)))).1).1,
      (splitSep '?' (splitSep '#'
        (':' :: '/' :: '/' :: (X.filter (fun c => ¬ isUnsafeUrlByte c)))).1).2,
      (splitSep '#' (':' :: '/' :: '/' :: (X.filter (fun c => ¬ isUnsafeUrlByte c)))).2⟩ :=
  rfl

theorem urlparse_colon_head (X d : Str) (c : ParseResult)
    (h : urlparse (':' :: '/' :: '/' :: X) d = .ok c) : c.scheme = schemeClean d := by
  unfold urlparse at h
  rw [urlsplit_colon_head X d] at h
  injection h with h
  rw [← h]

theorem usesRelative_sub_netloc : ∀ s ∈ usesRelative, s ∈ usesNetloc := by decide

-- ---------- C7 ----------

/-- C7 counterexample: with base `foo` and link `bar`, `normalize_url` produces the
degenerate URL `://bar` (empty scheme and netloc pasted around `://`); normalizing
that output again with the same base yields `://:/bar`, a different string, so the
claimed unconditional idempotence `normalize(b, normalize(b, l)) = normalize(b, l)`
fails. -/
theorem normalize_not_idempotent_counterexample :
    normalize_url "foo".data "bar".data = .ok "://bar".data ∧
    normalize_url "foo".data "://bar".data = .ok "://:/bar".data ∧
    ("://:/bar".data : Str) ≠ "://bar".data :=
  ⟨rfl, rfl, by decide⟩

/-- C7 amended: normalization is idempotent on every output that is a well-formed
absolute URL — whenever `normalize_url b l` succeeds with result `r` and `r` parses
with a nonempty scheme and a nonempty netloc, then `normalize_url b r = .ok r`.
(The counterexample shows the empty-scheme outputs are exactly where idempotence
breaks.)  Determinism holds trivially: `normalize_url` is a function of its
arguments. -/
theorem normalize_url_idempotent (b l r : Str) (c : ParseResult)
    (h1 : normalize_url b l = .ok r)
    (h2 : urlparse r [] = .ok c)
    (h3 : c.scheme ≠ []) (h4 : c.netloc ≠ []) :
    normalize_url b r = .ok r := by
  unfold normalize_url at h1
  cases hj : urljoin b l with
  | error e =>
    rw [hj] at h1
    exact absurd h1 (by simp)
  | ok j =>
    rw [hj] at h1
    replace h1 : (match urlparse j [] with
        | Except.error e => Except.error e
        | Except.ok p => Except.ok (p.scheme ++ ':' :: '/' :: '/' :: (p.netloc ++ p.path)))
        = Except.ok r := h1
    cases hpj : urlparse j [] with
    | error e =>
      rw [hpj] at h1
      exact absurd h1 (by simp)
    | ok cj =>
      rw [hpj] at h1
      injection h1 with h1
      subst h1
      obtain ⟨sh1, sh2, sh3, sh4, sh5, sh6, sh7⟩ := urlparse_shape j [] cj hpj
      rcases sh6 with hsc0 | hvt
      · exfalso
        have hsc0n : cj.scheme = [] := hsc0.trans rfl
        rw [hsc0n, List.nil_append] at h2
        exact h3 ((urlparse_colon_head _ [] c h2).trans rfl)
      · have h2keep := h2
        have hre0 := urlparse_reassemble cj.scheme cj.netloc cj.path []
          hvt sh1 sh2 sh3 sh4 sh5 sh7
        rw [hre0] at h2
        by_cases hbr : badBrackets
            ((cj.netloc ++ cj.path).takeWhile (fun c => ¬ isNetlocEnd c)) = true
        · rw [if_pos hbr] at h2
          exact absurd h2 (by simp)
        · rw [if_neg hbr] at h2
          injection h2 with h2c
          subst h2c
          have hTWDW := List.takeWhile_append_dropWhile
            (p := fun c => ¬ isNetlocEnd c) (l := cj.netloc ++ cj.path)
          have hTWne :
              (cj.netloc ++ cj.path).takeWhile (fun c => ¬ isNetlocEnd c) ≠ [] := h4
          have hDWsh :
              (cj.netloc ++ cj.path).dropWhile (fun c => ¬ isNetlocEnd c) = [] ∨
              ((cj.netloc ++ cj.path).dropWhile (fun c => ¬ isNetlocEnd c)).take 1
                = ['/'] := by
            cases hdw : (cj.netloc ++ cj.path).dropWhile (fun c => ¬ isNetlocEnd c) with
            | nil => exact .inl rfl
            | cons dh dt =>
              right
              have hfail := dropWhile_head_false _ _ _ _ hdw
              have hdh : isNetlocEnd dh = true := by
                by_cases hb2 : isNetlocEnd dh = true
                · exact hb2
                · simp [hb2] at hfail
              have hdmem : dh ∈ cj.netloc ++ cj.path := by
                apply List.dropWhile_subset
                rw [hdw]
                exact List.mem_cons_self _ _
              have hds : dh = '/' := by
                rcases List.mem_append.mp hdmem with hm | hm
                · rw [sh1 dh hm] at hdh
                  exact absurd hdh (by simp)
                · have hq2 := sh2 dh hm
                  simp [isNetlocEnd, hq2.1, hq2.2] at hdh
                  exact hdh
              rw [hds]
              rfl
          have hbbx : b ≠ [] → ∃ bb, urlparse b [] = .ok bb := by
            intro hb0
            unfold urljoin at hj
            rw [if_neg hb0] at hj
            by_cases hl : l = []
            · rw [if_pos hl] at hj
              injection hj with hj
              exact ⟨cj, by rw [hj]; exact hpj⟩
            · rw [if_neg hl] at hj
              cases hpb : urlparse b [] with
              | error e2 =>
                rw [hpb] at hj
                exact absurd hj (by simp)
              | ok bb => exact ⟨bb, rfl⟩
          have hjoin : urljoin b (cj.scheme ++ ':' :: '/' :: '/' :: (cj.netloc ++ cj.path))
              = .ok (cj.scheme ++ ':' :: '/' :: '/' :: (cj.netloc ++ cj.path)) := by
            by_cases hb0 : b = []
            · rw [hb0]
              unfold urljoin
              rw [if_pos rfl]
            · obtain ⟨bb, hpb⟩ := hbbx hb0
              have hrne : cj.scheme ++ ':' :: '/' :: '/' :: (cj.netloc ++ cj.path) ≠ [] := by
                simp
              have hre2 := urlparse_reassemble cj.scheme cj.netloc cj.path bb.scheme
                hvt sh1 sh2 sh3 sh4 sh5 sh7
              have hre2ok : urlparse (cj.scheme ++ ':' :: '/' :: '/' :: (cj.netloc ++ cj.path))
                  bb.scheme = .ok ⟨cj.scheme,
                    (cj.netloc ++ cj.path).takeWhile (fun c => ¬ isNetlocEnd c),
                    (cj.netloc ++ cj.path).dropWhile (fun c => ¬ isNetlocEnd c),
                    [], [], []⟩ := by
                rw [hre2, if_neg hbr]
              unfold urljoin
              rw [if_neg hb0, if_neg hrne]
              simp only [hpb]
              simp only [hre2ok]
              by_cases hrel : cj.scheme ≠ bb.scheme ∨ cj.scheme ∉ usesRelative
              · rw [if_pos hrel]
              · rw [if_neg hrel]
                push_neg at hrel
                rw [if_pos ⟨usesRelative_sub_netloc _ hrel.2, hTWne⟩]
                have hc1 : ¬ (([] : Str) ≠ []) := fun h => h rfl
                have hcs : cj.scheme ≠ [] := hvt.1
                have hcn :
                    ((cj.netloc ++ cj.path).takeWhile (fun c => ¬ isNetlocEnd c) ≠ []) ∨
                    (cj.scheme ≠ [] ∧ cj.scheme ∈ usesNetloc ∧
                     ((cj.netloc ++ cj.path).dropWhile (fun c => ¬ isNetlocEnd c)).take 2
                       ≠ ['/', '/']) := .inl hTWne
                have hcp : ¬ ((cj.netloc ++ cj.path).dropWhile (fun c => ¬ isNetlocEnd c) ≠ []
                    ∧ ((cj.netloc ++ cj.path).dropWhile (fun c => ¬ isNetlocEnd c)).take 1
                      ≠ ['/']) := by
                  rcases hDWsh with h | h
                  · exact fun hc => hc.1 h
                  · exact fun hc => hc.2 h
                simp only [urlunparse, urlunsplit]
                rw [if_neg hc1, if_neg hc1, if_pos hcs, if_neg hc1, if_pos hcn, if_neg hcp,
                  hTWDW]
          unfold normalize_url
          rw [hjoin]
          simp only [h2keep]
          rw [hTWDW]

/-- C7 witness: a concrete well-formed output — normalizing `x` against base
`http://h` yields `http://h/x`, which parses with scheme `http` and netloc `h`,
and normalizing it again returns it unchanged. -/
theorem normalize_url_idempotent_witness :
    normalize_url "http://h".data "http://h/x".data = .ok "http://h/x".data :=
  normalize_url_idempotent "http://h".data "x".data "http://h/x".data
    ⟨"http".data, "h".data, "/x".data, [], [], []⟩ rfl rfl (by decide) (by decide)

end App